import Mathlib

/-!
Verification of the column-renaming scripts in `src/backend/`:
`fix-handlers-snake-case.py` (unrestricted whole-file replacement) and
`update_sql_columns.py` (replacement restricted to backtick-delimited blocks).

Text is modelled as `List Char`.  Python's `str.count` / `str.replace`
(left-to-right, non-overlapping, for a nonempty pattern — every pattern used by
the scripts is nonempty) are modelled by the fuel-indexed scans `countF` and
`replF`; a fuel of at least the length of the scanned text makes the scan
total, and the wrappers `pyCount` / `pyReplace` pass exactly that fuel.
-/

set_option linter.unusedVariables false

/-- The backtick character, the delimiter of Go raw string literals. -/
def tick : Char := Char.ofNat 96

/-- The double-quote character. -/
def dq : Char := Char.ofNat 34

/-- The underscore character. -/
def usc : Char := Char.ofNat 95

/-- Boolean prefix test on character lists (Python `str.startswith`). -/
def pfx : List Char → List Char → Bool
  | [], _ => true
  | _ :: _, [] => false
  | a :: p, b :: s => a == b && pfx p s

/-- Fuel-indexed model of Python `s.count(p)`: counts non-overlapping
occurrences of `p` scanning left to right. -/
def countF (p : List Char) : Nat → List Char → Nat
  | 0, _ => 0
  | _ + 1, [] => 0
  | fuel + 1, c :: s =>
      if pfx p (c :: s) then 1 + countF p fuel ((c :: s).drop p.length)
      else countF p fuel s

/-- Python `s.count(p)` for a nonempty pattern `p`. -/
def pyCount (s p : List Char) : Nat := countF p s.length s

/-- Fuel-indexed model of Python `s.replace(p, r)`: replaces non-overlapping
occurrences of `p` by `r` scanning left to right. -/
def replF (p r : List Char) : Nat → List Char → List Char
  | 0, s => s
  | _ + 1, [] => []
  | fuel + 1, c :: s =>
      if pfx p (c :: s) then r ++ replF p r fuel ((c :: s).drop p.length)
      else c :: replF p r fuel s

/-- Python `s.replace(p, r)` for a nonempty pattern `p`. -/
def pyReplace (s p r : List Char) : List Char := replF p r s.length s

/-- The `COLUMN_MAPPINGS` table of `fix-handlers-snake-case.py`, in dict
insertion order (Python 3.7+ preserves it during iteration). -/
def COLUMN_MAPPINGS : List (List Char × List Char) :=
  [("\"teamId\"".toList, "team_id".toList),
   ("\"userId\"".toList, "user_id".toList),
   ("\"scheduledFor\"".toList, "scheduled_for".toList),
   ("\"publishedAt\"".toList, "published_at".toList),
   ("\"createdAt\"".toList, "created_at".toList),
   ("\"updatedAt\"".toList, "updated_at".toList),
   ("\"lastPublishJobId\"".toList, "last_publish_job_id".toList),
   ("\"lastPublishStatus\"".toList, "last_publish_status".toList),
   ("\"lastPublishError\"".toList, "last_publish_error".toList),
   ("\"lastPublishAttemptAt\"".toList, "last_publish_attempt_at".toList),
   ("\"providerId\"".toList, "provider_id".toList),
   ("\"imageUrl\"".toList, "image_url".toList)]

/-- The `REPLACEMENTS` table of `update_sql_columns.py`, in list order. -/
def REPLACEMENTS : List (List Char × List Char) :=
  [("\"teamId\"".toList, "team_id".toList),
   ("\"userId\"".toList, "user_id".toList),
   ("\"providerId\"".toList, "provider_id".toList),
   ("\"scheduledFor\"".toList, "scheduled_for".toList),
   ("\"publishedAt\"".toList, "published_at".toList),
   ("\"createdAt\"".toList, "created_at".toList),
   ("\"updatedAt\"".toList, "updated_at".toList),
   ("\"lastPublishJobId\"".toList, "last_publish_job_id".toList),
   ("\"lastPublishStatus\"".toList, "last_publish_status".toList),
   ("\"lastPublishError\"".toList, "last_publish_error".toList),
   ("\"lastPublishAttemptAt\"".toList, "last_publish_attempt_at".toList),
   ("\"imageUrl\"".toList, "image_url".toList)]

/-- `COLUMN_MAPPINGS` with its first two entries exchanged: the `userId` pair
now precedes the `teamId` pair.  A reordering of the table used to probe
whether the replacement loop is order independent. -/
def CM_SWAP : List (List Char × List Char) :=
  [("\"userId\"".toList, "user_id".toList),
   ("\"teamId\"".toList, "team_id".toList),
   ("\"scheduledFor\"".toList, "scheduled_for".toList),
   ("\"publishedAt\"".toList, "published_at".toList),
   ("\"createdAt\"".toList, "created_at".toList),
   ("\"updatedAt\"".toList, "updated_at".toList),
   ("\"lastPublishJobId\"".toList, "last_publish_job_id".toList),
   ("\"lastPublishStatus\"".toList, "last_publish_status".toList),
   ("\"lastPublishError\"".toList, "last_publish_error".toList),
   ("\"lastPublishAttemptAt\"".toList, "last_publish_attempt_at".toList),
   ("\"providerId\"".toList, "provider_id".toList),
   ("\"imageUrl\"".toList, "image_url".toList)]

/-- The replacement loop shared by both scripts: for each mapping in order,
count occurrences in the current text and, when the count is positive, replace
them and add the count to the running total. -/
def applyMappings : List (List Char × List Char) → List Char × Nat → List Char × Nat
  | [], acc => acc
  | (o, n) :: ms, (s, k) =>
      let c := pyCount s o
      applyMappings ms (if 0 < c then (pyReplace s o n, k + c) else (s, k))

/-- The in-memory replacement pass of `fix-handlers-snake-case.py`
(`update_file`, lines 42-51): unrestricted whole-content replacement. -/
def updateFileContent (s : List Char) : List Char × Nat :=
  applyMappings COLUMN_MAPPINGS (s, 0)

/-- Fuel-indexed scan behind `extract_sql_queries`: the regex
``r'`([^`]*)`'`` with `re.finditer` finds, left to right, a backtick, a maximal
backtick-free run, and a closing backtick; a backtick with no closing backtick
matches nothing further.  Each match is reported as `(start, end, contents)`
with absolute offsets, `pos` being the offset of the head of the scanned
suffix. -/
def extractAux : Nat → List Char → Nat → List (Nat × Nat × List Char)
  | 0, _, _ => []
  | _ + 1, [], _ => []
  | fuel + 1, c :: t, pos =>
      if c = tick then
        match t.dropWhile (fun d => d != tick) with
        | [] => []
        | _ :: rest =>
            let q := t.takeWhile (fun d => d != tick)
            (pos, pos + q.length + 2, q) :: extractAux fuel rest (pos + q.length + 2)
      else extractAux fuel t (pos + 1)

/-- `extract_sql_queries` of `update_sql_columns.py` (lines 26-36). -/
def extract_sql_queries (content : List Char) : List (Nat × Nat × List Char) :=
  extractAux content.length content 0

/-- The splicing loop of `update_sql_in_content` (lines 45-56): process the
matches (already reversed by the caller), rewrite each block with
`REPLACEMENTS`, and splice a changed block back at its original offsets. -/
def updateLoop : List (Nat × Nat × List Char) → List Char → Nat → List Char × Nat
  | [], content, acc => (content, acc)
  | (s, e, q) :: rest, content, acc =>
      let r := applyMappings REPLACEMENTS (q, 0)
      let content' :=
        if r.1 ≠ q then content.take s ++ tick :: r.1 ++ tick :: content.drop e
        else content
      updateLoop rest content' (acc + r.2)

/-- `update_sql_in_content` of `update_sql_columns.py` (lines 38-58): the
delimited-mode replacement pass. -/
def update_sql_in_content (content : List Char) : List Char × Nat :=
  updateLoop (extract_sql_queries content).reverse content 0

/-- Structural single-scan form of the delimited pass: copy characters until a
backtick; on a backtick with a closing backtick, rewrite the enclosed block
with `REPLACEMENTS` and continue after the closing backtick; on a backtick with
no closing backtick, keep the remainder unchanged.  Proven equal to
`update_sql_in_content` below. -/
def transformBlocksF : Nat → List Char → List Char × Nat
  | 0, s => (s, 0)
  | _ + 1, [] => ([], 0)
  | fuel + 1, c :: t =>
      if c = tick then
        match t.dropWhile (fun d => d != tick) with
        | [] => (c :: t, 0)
        | _ :: rest =>
            let q := t.takeWhile (fun d => d != tick)
            let r := applyMappings REPLACEMENTS (q, 0)
            let o := transformBlocksF fuel rest
            (tick :: (r.1 ++ tick :: o.1), r.2 + o.2)
      else
        let o := transformBlocksF fuel t
        (c :: o.1, o.2)

/-- Wrapper for `transformBlocksF` with sufficient fuel. -/
def transformBlocks (content : List Char) : List Char × Nat :=
  transformBlocksF content.length content

/-- A filesystem entry: missing, a readable/writable file, or a path on which
any I/O raises an unexpected error (e.g. a permission failure). -/
inductive FsEntry
  | absent
  | file (content : List Char)
  | ioError
deriving DecidableEq

/-- A filesystem state maps paths to entries. -/
abbrev FS := String → FsEntry

/-- Errors raised by the modelled I/O operations.  `fileNotFound` models
Python's `FileNotFoundError`; `ioFailure` models every other I/O exception. -/
inductive IoErr
  | fileNotFound (path : String)
  | ioFailure (path : String)
deriving DecidableEq

/-- Model of `open(p).read()`. -/
def readFile (fs : FS) (p : String) : Except IoErr (List Char) :=
  match fs p with
  | .file c => .ok c
  | .absent => .error (.fileNotFound p)
  | .ioError => .error (.ioFailure p)

/-- Model of `open(p, 'w').write(c)`: creates or overwrites the file (so it
never raises `FileNotFoundError`), failing only on an error-injecting path. -/
def writeFile (fs : FS) (p : String) (c : List Char) : Except IoErr FS :=
  match fs p with
  | .ioError => .error (.ioFailure p)
  | _ => .ok (fun q => if q = p then .file c else fs q)

/-- `update_file` of `fix-handlers-snake-case.py` (lines 31-58): read, write
the `.bak` backup, run the replacement pass, write the result back.  Errors
propagate to the caller (`main` handles them). -/
def update_file (fs : FS) (p : String) : Except IoErr (FS × Nat) :=
  match readFile fs p with
  | .error e => .error e
  | .ok content =>
      match writeFile fs (p ++ ".bak") content with
      | .error e => .error e
      | .ok fs1 =>
          let r := updateFileContent content
          match writeFile fs1 p r.1 with
          | .error e => .error e
          | .ok fs2 => .ok (fs2, r.2)

/-- `process_file` of `update_sql_columns.py` (lines 60-83): a missing file is
caught at the read and reported as a skip with count 0; any other error
propagates (the script has no handler for it, so it aborts the run). -/
def process_file (fs : FS) (p : String) : Except IoErr (FS × Nat) :=
  match readFile fs p with
  | .error (.fileNotFound _) => .ok (fs, 0)
  | .error e => .error e
  | .ok content =>
      match writeFile fs (p ++ ".bak") content with
      | .error e => .error e
      | .ok fs1 =>
          let r := update_sql_in_content content
          match writeFile fs1 p r.1 with
          | .error e => .error e
          | .ok fs2 => .ok (fs2, r.2)

/-- The file loop of `main` in `fix-handlers-snake-case.py` (lines 67-76):
`FileNotFoundError` is caught and the file skipped; any other exception
reaches the `except Exception` handler, which calls `sys.exit(1)` — the run
aborts with the remaining files unprocessed. -/
def runFiles1 (fs : FS) : List String → Except IoErr (FS × Nat)
  | [] => .ok (fs, 0)
  | p :: rest =>
      match update_file fs p with
      | .ok (fs', n) =>
          match runFiles1 fs' rest with
          | .ok (fs'', m) => .ok (fs'', n + m)
          | .error e => .error e
      | .error (.fileNotFound _) => runFiles1 fs rest
      | .error e => .error e

/-- The file loop of `main` in `update_sql_columns.py` (lines 92-95): no
handler at all, so any error propagating out of `process_file` aborts the
whole run (Python terminates with a non-zero status on an uncaught
exception). -/
def runFiles2 (fs : FS) : List String → Except IoErr (FS × Nat)
  | [] => .ok (fs, 0)
  | p :: rest =>
      match process_file fs p with
      | .ok (fs', n) =>
          match runFiles2 fs' rest with
          | .ok (fs'', m) => .ok (fs'', n + m)
          | .error e => .error e
      | .error e => .error e

/-- The hard-coded target file list, identical in both scripts. -/
def handlerFiles : List String :=
  ["internal/handlers/handlers.go",
   "internal/handlers/scheduled_posts_worker.go",
   "internal/handlers/realtime_ws.go"]

/-- `main` of `fix-handlers-snake-case.py`. -/
def main1 (fs : FS) : Except IoErr (FS × Nat) := runFiles1 fs handlerFiles

/-- `main` of `update_sql_columns.py`. -/
def main2 (fs : FS) : Except IoErr (FS × Nat) := runFiles2 fs handlerFiles

/-! ### Toolkit: prefixes, occurrences, and the replacement scan -/

lemma pfx_iff : ∀ (p s : List Char), pfx p s = true ↔ p <+: s
  | [], s => by simp [pfx]
  | a :: p, [] => by simp [pfx]
  | a :: p, b :: s => by
      simp [pfx, pfx_iff p s, List.cons_prefix_cons]

lemma mem_getLast? : ∀ {q : List Char} {a : Char}, q.getLast? = some a → a ∈ q := by
  intro q
  induction q with
  | nil => intro a h; simp at h
  | cons x xs ih =>
      intro a h
      cases xs with
      | nil => simp at h; simp [h]
      | cons y ys =>
          rw [List.getLast?_cons_cons] at h
          exact List.mem_cons_of_mem _ (ih h)

lemma getLast?_cons_ne_nil {q : List Char} {c : Char} (h : q ≠ []) :
    (c :: q).getLast? = q.getLast? := by
  cases q with
  | nil => exact absurd rfl h
  | cons y ys => rw [List.getLast?_cons_cons]

/-- `p` occurs in `s` at position `i`. -/
def occursAt (p s : List Char) (i : Nat) : Prop := p <+: s.drop i

lemma infix_iff_occursAt {p s : List Char} : p <:+: s ↔ ∃ i, occursAt p s i := by
  constructor
  · rintro ⟨u, v, rfl⟩
    refine ⟨u.length, ?_⟩
    unfold occursAt
    rw [List.append_assoc, List.drop_left]
    exact List.prefix_append p v
  · rintro ⟨i, t, ht⟩
    exact ⟨s.take i, t, by rw [List.append_assoc, ht, List.take_append_drop]⟩

lemma prefix_total {a b c : List Char} (h1 : a <+: c) (h2 : b <+: c) :
    a <+: b ∨ b <+: a := by
  rcases h1 with ⟨t1, h1⟩
  rcases h2 with ⟨t2, h2⟩
  rw [← h1] at h2
  rcases List.append_eq_append_iff.mp h2 with ⟨a', ha, _⟩ | ⟨c', hc, _⟩
  · exact Or.inr ⟨a', ha.symm⟩
  · exact Or.inl ⟨c', hc.symm⟩

lemma occursAt_shift {p b : List Char} (a : List Char) {j : Nat} (h : occursAt p b j) :
    occursAt p (a ++ b) (a.length + j) := by
  unfold occursAt at *
  rwa [List.drop_append_eq_append_drop, List.drop_eq_nil_of_le (Nat.le_add_right _ _),
    List.nil_append, Nat.add_sub_cancel_left]

lemma occursAt_unshift {p a b : List Char} {i : Nat} (hi : a.length ≤ i)
    (h : occursAt p (a ++ b) i) : occursAt p b (i - a.length) := by
  unfold occursAt at *
  rwa [List.drop_append_eq_append_drop, List.drop_eq_nil_of_le hi, List.nil_append] at h

lemma occursAt_head_mem {p a b : List Char} {i : Nat} {h0 : Char}
    (hp : p.head? = some h0) (hi : i < a.length) (h : occursAt p (a ++ b) i) : h0 ∈ a := by
  unfold occursAt at h
  rw [List.drop_append_eq_append_drop, Nat.sub_eq_zero_of_le (Nat.le_of_lt hi),
    List.drop_zero] at h
  cases hd : a.drop i with
  | nil =>
      have : a.length - i = 0 := by rw [← List.length_drop, hd]; rfl
      omega
  | cons x xs =>
      rw [hd] at h
      cases p with
      | nil => simp at hp
      | cons ph pt =>
          rcases List.cons_prefix_cons.mp h with ⟨he, _⟩
          have hx : x ∈ a := List.drop_subset i a (hd ▸ List.mem_cons_self x xs)
          simp at hp
          rw [← hp, he]
          exact hx

lemma occursAt_cons_succ {p s : List Char} {c : Char} {i : Nat} :
    occursAt p (c :: s) (i + 1) ↔ occursAt p s i := by
  unfold occursAt
  rw [List.drop_succ_cons]

lemma infix_of_infix_drop {p s : List Char} {n : Nat} (h : p <:+: s.drop n) : p <:+: s :=
  h.trans (List.drop_suffix n s).isInfix

lemma not_infix_tail {p s : List Char} {c : Char} (h : ¬ p <:+: c :: s) : ¬ p <:+: s :=
  fun hs => h (infix_of_infix_drop (n := 1) hs)

lemma not_pfx_of_not_infix {p s : List Char} (h : ¬ p <:+: s) : ¬ pfx p s = true :=
  fun hp => h ((pfx_iff _ _).mp hp).isInfix

/-- If a pattern does not occur, the replacement scan is the identity. -/
lemma replF_of_not_infix : ∀ (fuel : Nat) {p r t : List Char},
    ¬ p <:+: t → replF p r fuel t = t := by
  intro fuel
  induction fuel with
  | zero => intro p r t _; rfl
  | succ f ih =>
      intro p r t h
      cases t with
      | nil => rfl
      | cons c s =>
          rw [replF, if_neg ( not_pfx_of_not_infix h)]
          rw [ih (not_infix_tail h)]

/-- If a pattern does not occur, the counting scan reports zero. -/
lemma countF_of_not_infix : ∀ (fuel : Nat) {p t : List Char},
    ¬ p <:+: t → countF p fuel t = 0 := by
  intro fuel
  induction fuel with
  | zero => intro p t _; rfl
  | succ f ih =>
      intro p t h
      cases t with
      | nil => rfl
      | cons c s =>
          rw [countF, if_neg ( not_pfx_of_not_infix h)]
          exact ih (not_infix_tail h)

/-- With sufficient fuel, a zero count means the pattern does not occur. -/
lemma not_infix_of_countF_zero : ∀ (fuel : Nat) {p t : List Char},
    p ≠ [] → t.length ≤ fuel → countF p fuel t = 0 → ¬ p <:+: t := by
  intro fuel
  induction fuel with
  | zero =>
      intro p t hp hl _
      rw [List.length_eq_zero.mp (Nat.le_zero.mp hl)]
      rw [List.infix_nil]
      exact hp
  | succ f ih =>
      intro p t hp hl hc
      cases t with
      | nil => rw [List.infix_nil]; exact hp
      | cons c s =>
          by_cases hpf : pfx p (c :: s) = true
          · rw [countF, if_pos hpf] at hc
            omega
          · rw [countF, if_neg hpf] at hc
            intro hinf
            rcases (List.infix_cons_iff).mp hinf with hpre | hinf'
            · exact hpf ((pfx_iff _ _).mpr hpre)
            · exact ih hp (by simpa using Nat.le_of_succ_le_succ hl) hc hinf'

/-- Core structural fact: a nonempty word that ends in a double quote and
contains no underscore can be a prefix of the output of the replacement scan
only by being a prefix of the input, provided the replacement text contains an
underscore and no double quote. -/
lemma pre_replF : ∀ (fuel : Nat) {o n q t : List Char},
    q.getLast? = some dq → usc ∉ q → dq ∉ n → usc ∈ n →
    q <+: replF o n fuel t → q <+: t := by
  intro fuel
  induction fuel with
  | zero => intro o n q t _ _ _ _ h; exact h
  | succ f ih =>
      intro o n q t hlast husc hdqn huscn h
      cases t with
      | nil =>
          rw [show replF o n (f + 1) [] = [] from rfl] at h
          rw [List.prefix_nil.mp h] at hlast
          simp at hlast
      | cons c s =>
          by_cases hp : pfx o (c :: s) = true
          · rw [replF, if_pos hp] at h
            rcases prefix_total h (List.prefix_append n _) with hq | hn
            · exact absurd (hq.subset (mem_getLast? hlast)) hdqn
            · exact absurd (hn.subset huscn) husc
          · rw [replF, if_neg hp] at h
            cases q with
            | nil => exact List.nil_prefix
            | cons qh qt =>
                rcases List.cons_prefix_cons.mp h with ⟨he, hqt⟩
                subst he
                cases qt with
                | nil => exact List.cons_prefix_cons.mpr ⟨rfl, List.nil_prefix⟩
                | cons y ys =>
                    have hlast' : (y :: ys).getLast? = some dq := by
                      rwa [getLast?_cons_ne_nil (by simp)] at hlast
                    have husc' : usc ∉ y :: ys := fun hm => husc (List.mem_cons_of_mem _ hm)
                    exact List.cons_prefix_cons.mpr
                      ⟨rfl, ih hlast' husc' hdqn huscn hqt⟩

/-- No-creation: the replacement scan cannot introduce a quote-delimited,
underscore-free token that was absent from the input. -/
lemma not_infix_replF : ∀ (fuel : Nat) {o n p t : List Char},
    p.head? = some dq → p.getLast? = some dq → usc ∉ p → dq ∉ n → usc ∈ n →
    ¬ p <:+: t → ¬ p <:+: replF o n fuel t := by
  intro fuel
  induction fuel with
  | zero => intro o n p t _ _ _ _ _ h; exact h
  | succ f ih =>
      intro o n p t hhead hlast husc hdqn huscn hnt
      cases t with
      | nil =>
          intro hinf
          rw [show replF o n (f + 1) [] = [] from rfl, List.infix_nil] at hinf
          rw [hinf] at hhead
          simp at hhead
      | cons c s =>
          by_cases hp : pfx o (c :: s) = true
          · rw [replF, if_pos hp]
            intro hinf
            rcases infix_iff_occursAt.mp hinf with ⟨i, hocc⟩
            by_cases hi : i < n.length
            · exact hdqn (occursAt_head_mem hhead hi hocc)
            · have hocc' := occursAt_unshift (Nat.le_of_not_lt hi) hocc
              have hnt' : ¬ p <:+: (c :: s).drop o.length :=
                fun hx => hnt (infix_of_infix_drop hx)
              exact ih hhead hlast husc hdqn huscn hnt'
                (infix_iff_occursAt.mpr ⟨_, hocc'⟩)
          · rw [replF, if_neg hp]
            intro hinf
            rcases (List.infix_cons_iff).mp hinf with hpre | hinf'
            · cases p with
              | nil => simp at hhead
              | cons ph pt =>
                  rcases List.cons_prefix_cons.mp hpre with ⟨he, hpt⟩
                  subst he
                  cases pt with
                  | nil => exact hnt (List.cons_prefix_cons.mpr
                      ⟨rfl, List.nil_prefix⟩).isInfix
                  | cons y ys =>
                      have hlast' : (y :: ys).getLast? = some dq := by
                        rwa [getLast?_cons_ne_nil (by simp)] at hlast
                      have husc' : usc ∉ y :: ys :=
                        fun hm => husc (List.mem_cons_of_mem _ hm)
                      have := pre_replF f hlast' husc' hdqn huscn hpt
                      exact hnt (List.cons_prefix_cons.mpr ⟨rfl, this⟩).isInfix
            · exact ih hhead hlast husc hdqn huscn (not_infix_tail hnt) hinf'

/-- Self-elimination: after replacing a quote-delimited token, no occurrence
of that token remains. -/
lemma not_infix_replF_self : ∀ (fuel : Nat) {o n t : List Char},
    o.head? = some dq → o.getLast? = some dq → usc ∉ o → 2 ≤ o.length →
    dq ∉ n → usc ∈ n → t.length ≤ fuel → ¬ o <:+: replF o n fuel t := by
  intro fuel
  induction fuel with
  | zero =>
      intro o n t hhead _ _ _ _ _ hl
      rw [List.length_eq_zero.mp (Nat.le_zero.mp hl)]
      intro hinf
      rw [show replF o n 0 [] = [] from rfl, List.infix_nil] at hinf
      rw [hinf] at hhead
      simp at hhead
  | succ f ih =>
      intro o n t hhead hlast husc hlen hdqn huscn hl
      cases t with
      | nil =>
          intro hinf
          rw [show replF o n (f + 1) [] = [] from rfl, List.infix_nil] at hinf
          rw [hinf] at hhead
          simp at hhead
      | cons c s =>
          by_cases hp : pfx o (c :: s) = true
          · rw [replF, if_pos hp]
            intro hinf
            rcases infix_iff_occursAt.mp hinf with ⟨i, hocc⟩
            by_cases hi : i < n.length
            · exact hdqn (occursAt_head_mem hhead hi hocc)
            · have hocc' := occursAt_unshift (Nat.le_of_not_lt hi) hocc
              have hl' : ((c :: s).drop o.length).length ≤ f := by
                rw [List.length_drop, List.length_cons]
                rw [List.length_cons] at hl
                omega
              exact ih hhead hlast husc hlen hdqn huscn hl'
                (infix_iff_occursAt.mpr ⟨_, hocc'⟩)
          · rw [replF, if_neg hp]
            intro hinf
            rcases (List.infix_cons_iff).mp hinf with hpre | hinf'
            · cases o with
              | nil => simp at hhead
              | cons oh ot =>
                  rcases List.cons_prefix_cons.mp hpre with ⟨he, hot⟩
                  subst he
                  cases ot with
                  | nil => simp at hlen
                  | cons y ys =>
                      have hlast' : (y :: ys).getLast? = some dq := by
                        rwa [getLast?_cons_ne_nil (by simp)] at hlast
                      have husc' : usc ∉ y :: ys :=
                        fun hm => husc (List.mem_cons_of_mem _ hm)
                      have := pre_replF f hlast' husc' hdqn huscn hot
                      exact hp ((pfx_iff _ _).mpr (List.cons_prefix_cons.mpr ⟨rfl, this⟩))
            · exact ih hhead hlast husc hlen hdqn huscn
                (by simpa using Nat.le_of_succ_le_succ hl) hinf'

/-! ### Structural conditions satisfied by every mapping entry -/

/-- Structural conditions on a mapping pair, satisfied by every entry of both
tables: the old token is a double-quoted, underscore-free, backtick-free word
with quotes only at its two ends; the new token contains an underscore and no
double quote or backtick. -/
def GoodPair (o n : List Char) : Prop :=
  o.head? = some dq ∧ o.getLast? = some dq ∧ usc ∉ o ∧ 2 ≤ o.length ∧
  dq ∉ (o.drop 1).dropLast ∧ tick ∉ o ∧ dq ∉ n ∧ usc ∈ n ∧ tick ∉ n

instance (o n : List Char) : Decidable (GoodPair o n) := by
  unfold GoodPair; infer_instance

lemma GoodPair.headDq {o n : List Char} (h : GoodPair o n) : o.head? = some dq := h.1

lemma GoodPair.lastDq {o n : List Char} (h : GoodPair o n) : o.getLast? = some dq := h.2.1

lemma GoodPair.uscOld {o n : List Char} (h : GoodPair o n) : usc ∉ o := h.2.2.1

lemma GoodPair.len2 {o n : List Char} (h : GoodPair o n) : 2 ≤ o.length := h.2.2.2.1

lemma GoodPair.midDq {o n : List Char} (h : GoodPair o n) :
    dq ∉ (o.drop 1).dropLast := h.2.2.2.2.1

lemma GoodPair.tickOld {o n : List Char} (h : GoodPair o n) : tick ∉ o := h.2.2.2.2.2.1

lemma GoodPair.dqNew {o n : List Char} (h : GoodPair o n) : dq ∉ n := h.2.2.2.2.2.2.1

lemma GoodPair.uscNew {o n : List Char} (h : GoodPair o n) : usc ∈ n := h.2.2.2.2.2.2.2.1

lemma GoodPair.tickNew {o n : List Char} (h : GoodPair o n) : tick ∉ n := h.2.2.2.2.2.2.2.2

lemma GoodPair.oldNeNil {o n : List Char} (h : GoodPair o n) : o ≠ [] := by
  intro he
  have := h.len2
  rw [he] at this
  simp at this

lemma goodCM : ∀ m ∈ COLUMN_MAPPINGS, GoodPair m.1 m.2 := by decide

lemma goodRP : ∀ m ∈ REPLACEMENTS, GoodPair m.1 m.2 := by decide

/-! ### Lemmas about the shared replacement loop -/

lemma applyMappings_cons (o n : List Char) (ms : List (List Char × List Char))
    (s : List Char) (k : Nat) :
    applyMappings ((o, n) :: ms) (s, k) =
      applyMappings ms
        (if 0 < pyCount s o then (pyReplace s o n, k + pyCount s o) else (s, k)) := rfl

/-- The count accumulator only adds up: the loop on accumulator `k` returns
the text of the loop on accumulator `0` and adds `k` to its count. -/
lemma applyMappings_acc : ∀ (ms : List (List Char × List Char)) (s : List Char) (k : Nat),
    applyMappings ms (s, k) =
      ((applyMappings ms (s, 0)).1, k + (applyMappings ms (s, 0)).2) := by
  intro ms
  induction ms with
  | nil => intro s k; simp [applyMappings]
  | cons m ms ih =>
      rcases m with ⟨o, n⟩
      intro s k
      rw [applyMappings_cons, applyMappings_cons]
      by_cases h : 0 < pyCount s o
      · rw [if_pos h, if_pos h, ih (pyReplace s o n) (k + pyCount s o),
          ih (pyReplace s o n) (0 + pyCount s o)]
        exact congrArg _ (by omega)
      · rw [if_neg h, if_neg h, ih s k, ih s 0]

/-- If no old token of the table occurs, the loop is the identity and adds
nothing to the count. -/
lemma applyMappings_of_not_infix :
    ∀ {ms : List (List Char × List Char)} {s : List Char} {k : Nat},
    (∀ m ∈ ms, ¬ m.1 <:+: s) → applyMappings ms (s, k) = (s, k) := by
  intro ms
  induction ms with
  | nil => intro s k _; rfl
  | cons m ms ih =>
      rcases m with ⟨o, n⟩
      intro s k h
      have h0 : pyCount s o = 0 :=
        countF_of_not_infix _ (h (o, n) (List.mem_cons_self _ _))
      rw [applyMappings_cons, h0, if_neg (lt_irrefl 0)]
      exact ih (fun m hm => h m (List.mem_cons_of_mem _ hm))

/-- Absence of a quote-delimited underscore-free token is preserved by the
whole loop. -/
lemma not_infix_applyMappings :
    ∀ {ms : List (List Char × List Char)} {s : List Char} {k : Nat} {p : List Char},
    (∀ m ∈ ms, dq ∉ m.2 ∧ usc ∈ m.2) →
    p.head? = some dq → p.getLast? = some dq → usc ∉ p →
    ¬ p <:+: s → ¬ p <:+: (applyMappings ms (s, k)).1 := by
  intro ms
  induction ms with
  | nil => intro s k p _ _ _ _ h; exact h
  | cons m ms ih =>
      rcases m with ⟨o, n⟩
      intro s k p hms hh hl hu hns
      have hn := hms (o, n) (List.mem_cons_self _ _)
      have hms' : ∀ m ∈ ms, dq ∉ m.2 ∧ usc ∈ m.2 :=
        fun m hm => hms m (List.mem_cons_of_mem _ hm)
      rw [applyMappings_cons]
      by_cases hc : 0 < pyCount s o
      · rw [if_pos hc]
        exact ih hms' hh hl hu (not_infix_replF _ hh hl hu hn.1 hn.2 hns)
      · rw [if_neg hc]
        exact ih hms' hh hl hu hns

/-- After the full loop, no old token of the table occurs anywhere in the
resulting text. -/
lemma applyMappings_no_old :
    ∀ {ms : List (List Char × List Char)} {s : List Char} {k : Nat},
    (∀ m ∈ ms, GoodPair m.1 m.2) →
    ∀ m ∈ ms, ¬ m.1 <:+: (applyMappings ms (s, k)).1 := by
  intro ms
  induction ms with
  | nil => intro s k _ m hm; exact absurd hm (List.not_mem_nil m)
  | cons mp ms ih =>
      rcases mp with ⟨o, n⟩
      intro s k hg m hm
      have hgood : GoodPair o n := hg (o, n) (List.mem_cons_self _ _)
      have hg' : ∀ m ∈ ms, GoodPair m.1 m.2 :=
        fun m hm => hg m (List.mem_cons_of_mem _ hm)
      have hnews : ∀ m ∈ ms, dq ∉ m.2 ∧ usc ∈ m.2 :=
        fun m hm => ⟨(hg' m hm).dqNew, (hg' m hm).uscNew⟩
      rw [applyMappings_cons]
      rcases List.mem_cons.mp hm with he | hm'
      · rw [he]
        by_cases hc : 0 < pyCount s o
        · rw [if_pos hc]
          exact not_infix_applyMappings hnews hgood.headDq hgood.lastDq hgood.uscOld
            (not_infix_replF_self _ hgood.headDq hgood.lastDq hgood.uscOld hgood.len2
              hgood.dqNew hgood.uscNew (le_refl _))
        · rw [if_neg hc]
          exact not_infix_applyMappings hnews hgood.headDq hgood.lastDq hgood.uscOld
            (not_infix_of_countF_zero _ hgood.oldNeNil (le_refl _)
              (Nat.eq_zero_of_not_pos hc))
      · by_cases hc : 0 < pyCount s o
        · rw [if_pos hc]; exact ih hg' m hm'
        · rw [if_neg hc]; exact ih hg' m hm'

/-- Running the loop on its own output changes nothing and counts zero. -/
lemma applyMappings_idem {ms : List (List Char × List Char)}
    (hg : ∀ m ∈ ms, GoodPair m.1 m.2) (s : List Char) (k : Nat) :
    applyMappings ms ((applyMappings ms (s, 0)).1, k) = ((applyMappings ms (s, 0)).1, k) :=
  applyMappings_of_not_infix (fun m hm => applyMappings_no_old hg m hm)

/-- The replacement scan introduces no backtick when neither the text nor the
replacement word contains one. -/
lemma tick_replF : ∀ (fuel : Nat) {o n t : List Char},
    tick ∉ t → tick ∉ n → tick ∉ replF o n fuel t := by
  intro fuel
  induction fuel with
  | zero => intro o n t ht _; exact ht
  | succ f ih =>
      intro o n t ht hn
      cases t with
      | nil => simp [replF]
      | cons c s =>
          by_cases hp : pfx o (c :: s) = true
          · rw [replF, if_pos hp]
            intro hmem
            rcases List.mem_append.mp hmem with h | h
            · exact hn h
            · exact ih (fun hx => ht (List.drop_subset _ _ hx)) hn h
          · rw [replF, if_neg hp]
            intro hmem
            rcases List.mem_cons.mp hmem with h | h
            · exact ht (h ▸ List.mem_cons_self c s)
            · exact ih (fun hx => ht (List.mem_cons_of_mem _ hx)) hn h

/-- The whole loop introduces no backtick. -/
lemma tick_applyMappings :
    ∀ {ms : List (List Char × List Char)} {s : List Char} {k : Nat},
    (∀ m ∈ ms, tick ∉ m.2) → tick ∉ s → tick ∉ (applyMappings ms (s, k)).1 := by
  intro ms
  induction ms with
  | nil => intro s k _ hs; exact hs
  | cons m ms ih =>
      rcases m with ⟨o, n⟩
      intro s k hms hs
      have hms' : ∀ m ∈ ms, tick ∉ m.2 := fun m hm => hms m (List.mem_cons_of_mem _ hm)
      rw [applyMappings_cons]
      by_cases hc : 0 < pyCount s o
      · rw [if_pos hc]
        exact ih hms' (tick_replF _ hs (hms (o, n) (List.mem_cons_self _ _)))
      · rw [if_neg hc]
        exact ih hms' hs

/-! ### Unfolding equations for the block scans -/

lemma tf_zero (s : List Char) : transformBlocksF 0 s = (s, 0) := rfl

lemma tf_nil (f : Nat) : transformBlocksF (f + 1) [] = ([], 0) := rfl

lemma tf_cons_ntick {c : Char} {t : List Char} {f : Nat} (h : ¬ c = tick) :
    transformBlocksF (f + 1) (c :: t) =
      (c :: (transformBlocksF f t).1, (transformBlocksF f t).2) := by
  simp [transformBlocksF, h]

lemma tf_tick_nil {t : List Char} {f : Nat}
    (h : t.dropWhile (fun d => d != tick) = []) :
    transformBlocksF (f + 1) (tick :: t) = (tick :: t, 0) := by
  simp [transformBlocksF, h]

lemma tf_tick_cons {t rest : List Char} {x : Char} {f : Nat}
    (h : t.dropWhile (fun d => d != tick) = x :: rest) :
    transformBlocksF (f + 1) (tick :: t) =
      (tick :: ((applyMappings REPLACEMENTS (t.takeWhile (fun d => d != tick), 0)).1 ++
          tick :: (transformBlocksF f rest).1),
       (applyMappings REPLACEMENTS (t.takeWhile (fun d => d != tick), 0)).2 +
          (transformBlocksF f rest).2) := by
  simp [transformBlocksF, h]

lemma ext_zero (s : List Char) (pos : Nat) : extractAux 0 s pos = [] := rfl

lemma ext_nil (f : Nat) (pos : Nat) : extractAux (f + 1) [] pos = [] := rfl

lemma ext_cons_ntick {c : Char} {t : List Char} {f pos : Nat} (h : ¬ c = tick) :
    extractAux (f + 1) (c :: t) pos = extractAux f t (pos + 1) := by
  simp [extractAux, h]

lemma ext_tick_nil {t : List Char} {f pos : Nat}
    (h : t.dropWhile (fun d => d != tick) = []) :
    extractAux (f + 1) (tick :: t) pos = [] := by
  simp [extractAux, h]

lemma ext_tick_cons {t rest : List Char} {x : Char} {f pos : Nat}
    (h : t.dropWhile (fun d => d != tick) = x :: rest) :
    extractAux (f + 1) (tick :: t) pos =
      (pos, pos + (t.takeWhile (fun d => d != tick)).length + 2,
        t.takeWhile (fun d => d != tick)) ::
        extractAux f rest (pos + (t.takeWhile (fun d => d != tick)).length + 2) := by
  simp [extractAux, h]

lemma updateLoop_nil (content : List Char) (acc : Nat) :
    updateLoop [] content acc = (content, acc) := rfl

lemma updateLoop_one (s e : Nat) (q content : List Char) (acc : Nat) :
    updateLoop [(s, e, q)] content acc =
      (if (applyMappings REPLACEMENTS (q, 0)).1 ≠ q then
          content.take s ++ tick :: (applyMappings REPLACEMENTS (q, 0)).1 ++
            tick :: content.drop e
        else content,
       acc + (applyMappings REPLACEMENTS (q, 0)).2) := rfl

lemma updateLoop_append :
    ∀ (l1 l2 : List (Nat × Nat × List Char)) (content : List Char) (acc : Nat),
    updateLoop (l1 ++ l2) content acc =
      updateLoop l2 (updateLoop l1 content acc).1 (updateLoop l1 content acc).2 := by
  intro l1
  induction l1 with
  | nil => intro l2 content acc; rfl
  | cons m l1 ih =>
      rcases m with ⟨s, e, q⟩
      intro l2 content acc
      rw [List.cons_append, updateLoop, updateLoop]
      exact ih l2 _ _

/-- The first character of a nonempty `dropWhile (· != tick)` result is a
backtick. -/
lemma dropWhile_tick_head : ∀ {t r : List Char} {d : Char},
    t.dropWhile (fun x => x != tick) = d :: r → d = tick := by
  intro t
  induction t with
  | nil => intro r d h; simp [List.dropWhile] at h
  | cons x xs ih =>
      intro r d h
      rw [List.dropWhile_cons] at h
      by_cases hx : x = tick
      · rw [if_neg (by simp [hx])] at h
        rw [List.cons.injEq] at h
        rw [← h.1, hx]
      · rw [if_pos (by simp [hx])] at h
        exact ih h

lemma tick_not_mem_takeWhile {t : List Char} :
    tick ∉ t.takeWhile (fun d => d != tick) := by
  intro hm
  have := List.mem_takeWhile_imp hm
  simp at this

lemma tick_not_mem_of_dropWhile_nil {t : List Char}
    (h : t.dropWhile (fun d => d != tick) = []) : tick ∉ t := by
  intro hm
  have := List.dropWhile_eq_nil_iff.mp h tick hm
  simp at this

/-- Splicing the rewritten blocks back at their recorded offsets is the same
as the single structural scan. -/
lemma splice_eq : ∀ (fuel : Nat) (suffix content : List Char) (pos : Nat),
    content.drop pos = suffix → suffix.length ≤ fuel → pos ≤ content.length →
    updateLoop (extractAux fuel suffix pos).reverse content 0 =
      (content.take pos ++ (transformBlocksF fuel suffix).1,
        (transformBlocksF fuel suffix).2) := by
  intro fuel
  induction fuel with
  | zero =>
      intro suffix content pos hdrop hlen hpos
      have hs : suffix = [] := List.length_eq_zero.mp (Nat.le_zero.mp hlen)
      subst hs
      rw [ext_zero, List.reverse_nil, updateLoop_nil, tf_zero]
      have hcl : content.length ≤ pos := by
        have h1 := congrArg List.length hdrop
        rw [List.length_drop] at h1
        simp at h1
        omega
      rw [List.take_of_length_le hcl, List.append_nil]
  | succ f ih =>
      intro suffix content pos hdrop hlen hpos
      cases suffix with
      | nil =>
          rw [ext_nil, List.reverse_nil, updateLoop_nil, tf_nil]
          have hcl : content.length ≤ pos := by
            have h1 := congrArg List.length hdrop
            rw [List.length_drop] at h1
            simp at h1
            omega
          rw [List.take_of_length_le hcl, List.append_nil]
      | cons c t =>
          have hlens : content.length = pos + 1 + t.length := by
            have h1 := congrArg List.length hdrop
            rw [List.length_drop, List.length_cons] at h1
            omega
          by_cases hc : c = tick
          · subst hc
            cases hdw : t.dropWhile (fun d => d != tick) with
            | nil =>
                rw [ext_tick_nil hdw, List.reverse_nil, updateLoop_nil, tf_tick_nil hdw,
                  ← hdrop, List.take_append_drop]
            | cons x rest =>
                have hx : x = tick := dropWhile_tick_head hdw
                subst hx
                set q := t.takeWhile (fun d => d != tick) with hq
                have ht : t = q ++ tick :: rest := by
                  conv_lhs => rw [← List.takeWhile_append_dropWhile
                    (fun d => d != tick) t]
                  rw [hdw]
                have hsplit : tick :: t = (tick :: (q ++ [tick])) ++ rest := by
                  rw [ht]
                  simp
                have hlsplit : (tick :: (q ++ [tick])).length = q.length + 2 := by
                  simp
                have hlt : t.length = q.length + 1 + rest.length := by
                  rw [ht]
                  simp
                  omega
                rw [ext_tick_cons hdw, tf_tick_cons hdw, ← hq]
                set pos' := pos + q.length + 2 with hpos'
                set r := applyMappings REPLACEMENTS (q, 0) with hr
                rw [List.reverse_cons, updateLoop_append]
                have hdrop2 : content.drop pos' = rest := by
                  have h1 : content.drop pos' = (content.drop pos).drop (q.length + 2) := by
                    rw [List.drop_drop, show pos + (q.length + 2) = pos' by omega]
                  rw [h1, hdrop, hsplit, ← hlsplit, List.drop_left]
                have hlen2 : rest.length ≤ f := by
                  rw [List.length_cons] at hlen
                  omega
                have hposle : pos' ≤ content.length := by omega
                rw [ih rest content pos' hdrop2 hlen2 hposle]
                set B1 := (transformBlocksF f rest).1 with hB1
                set n1 := (transformBlocksF f rest).2 with hn1
                rw [updateLoop_one, ← hr]
                have htake' : content.take pos' = content.take pos ++ (tick :: (q ++ [tick])) := by
                  have h1 : content.take pos' = content.take pos ++ (content.drop pos).take (q.length + 2) := by
                    rw [← List.take_add, show pos + (q.length + 2) = pos' by omega]
                  rw [h1, hdrop, hsplit, ← hlsplit, List.take_left]
                have hlenc : (content.take pos').length = pos' := by
                  rw [List.length_take]
                  omega
                have htakepos : (content.take pos' ++ B1).take pos = content.take pos := by
                  rw [List.take_append_eq_append_take, hlenc,
                    show pos - pos' = 0 by omega, List.take_zero, List.append_nil,
                    List.take_take, show min pos pos' = pos by omega]
                have hdroppos : (content.take pos' ++ B1).drop pos' = B1 :=
                  List.drop_left' hlenc
                by_cases hrq : r.1 = q
                · rw [if_neg (fun hne => hne hrq)]
                  rw [htake', hrq]
                  simp only [Prod.mk.injEq]
                  constructor
                  · simp
                  · omega
                · rw [if_pos hrq]
                  rw [htakepos, hdroppos]
                  simp only [Prod.mk.injEq]
                  constructor
                  · simp
                  · omega
          · rw [ext_cons_ntick hc, tf_cons_ntick hc]
            have hdrop' : content.drop (pos + 1) = t := by
              have h2 : (content.drop pos).drop 1 = content.drop (pos + 1) :=
                List.drop_drop 1 pos content
              rw [← h2, hdrop, List.drop_succ_cons, List.drop_zero]
            have hlen' : t.length ≤ f := by
              rw [List.length_cons] at hlen
              omega
            have hpos2 : pos + 1 ≤ content.length := by omega
            rw [ih t content (pos + 1) hdrop' hlen' hpos2]
            have htake1 : content.take (pos + 1) = content.take pos ++ [c] := by
              rw [List.take_add, hdrop, show (c :: t).take 1 = [c] from rfl]
            rw [htake1]
            simp

/-- The delimited-mode pass equals the single structural scan. -/
lemma update_eq_transformBlocks (content : List Char) :
    update_sql_in_content content = transformBlocks content := by
  unfold update_sql_in_content transformBlocks extract_sql_queries
  rw [splice_eq content.length content content 0 rfl (le_refl _) (Nat.zero_le _)]
  rw [List.take_zero, List.nil_append]

/-! ### Behavior of the block scan on decomposed inputs -/

lemma takeWhile_tick_of_append : ∀ {a : List Char} (b : List Char), tick ∉ a →
    (a ++ tick :: b).takeWhile (fun d => d != tick) = a ∧
    (a ++ tick :: b).dropWhile (fun d => d != tick) = tick :: b := by
  intro a
  induction a with
  | nil =>
      intro b _
      constructor
      · simp [List.takeWhile_cons]
      · simp [List.dropWhile_cons]
  | cons x xs ih =>
      intro b hx
      have hxt : ¬ x = tick := fun he => hx (he ▸ List.mem_cons_self x xs)
      have := ih b (fun hm => hx (List.mem_cons_of_mem _ hm))
      constructor
      · rw [List.cons_append, List.takeWhile_cons]
        simp only [bne_iff_ne, ne_eq, hxt, not_false_eq_true, if_true]
        rw [this.1]
      · rw [List.cons_append, List.dropWhile_cons]
        simp only [bne_iff_ne, ne_eq, hxt, not_false_eq_true, if_true]
        rw [this.2]

lemma takeWhile_append_of_tick_mem : ∀ {xs : List Char} (r : List Char), tick ∈ xs →
    (xs ++ r).takeWhile (fun d => d != tick) = xs.takeWhile (fun d => d != tick) ∧
    (xs ++ r).dropWhile (fun d => d != tick) = xs.dropWhile (fun d => d != tick) ++ r := by
  intro xs
  induction xs with
  | nil => intro r hm; exact absurd hm (List.not_mem_nil tick)
  | cons y ys ih =>
      intro r hm
      by_cases hy : y = tick
      · subst hy
        constructor
        · rw [List.cons_append, List.takeWhile_cons, List.takeWhile_cons]
          simp
        · rw [List.cons_append, List.dropWhile_cons, List.dropWhile_cons]
          simp
      · have hm' : tick ∈ ys := by
          rcases List.mem_cons.mp hm with he | h
          · exact absurd he.symm hy
          · exact h
        have := ih r hm'
        constructor
        · rw [List.cons_append, List.takeWhile_cons, List.takeWhile_cons]
          simp only [bne_iff_ne, ne_eq, hy, not_false_eq_true, if_true]
          rw [this.1]
        · rw [List.cons_append, List.dropWhile_cons, List.dropWhile_cons]
          simp only [bne_iff_ne, ne_eq, hy, not_false_eq_true, if_true]
          rw [this.2]

/-- A backtick-free text passes through the block scan unchanged with a zero
count. -/
lemma tf_no_tick : ∀ (fuel : Nat) {c : List Char}, tick ∉ c →
    transformBlocksF fuel c = (c, 0) := by
  intro fuel
  induction fuel with
  | zero => intro c _; rfl
  | succ f ih =>
      intro c hc
      cases c with
      | nil => rfl
      | cons x xs =>
          have hxt : ¬ x = tick := fun he => hc (he ▸ List.mem_cons_self x xs)
          rw [tf_cons_ntick hxt, ih (fun hm => hc (List.mem_cons_of_mem _ hm))]

/-- The block scan is idempotent: run on its own output it changes nothing
and counts zero. -/
lemma tf_idem : ∀ (fuel : Nat) (c : List Char), c.length ≤ fuel →
    ∀ (fuel2 : Nat), (transformBlocksF fuel c).1.length ≤ fuel2 →
    transformBlocksF fuel2 (transformBlocksF fuel c).1 =
      ((transformBlocksF fuel c).1, 0) := by
  intro fuel
  induction fuel with
  | zero =>
      intro c hlen fuel2 hlen2
      have hc : c = [] := List.length_eq_zero.mp (Nat.le_zero.mp hlen)
      subst hc
      cases fuel2 with
      | zero => rfl
      | succ f2 => rfl
  | succ f ih =>
      intro c hlen fuel2 hlen2
      cases c with
      | nil =>
          cases fuel2 with
          | zero => rfl
          | succ f2 => rfl
      | cons x t =>
          by_cases hx : x = tick
          · subst hx
            cases hdw : t.dropWhile (fun d => d != tick) with
            | nil =>
                rw [tf_tick_nil hdw] at hlen2 ⊢
                cases fuel2 with
                | zero => simp at hlen2
                | succ f2 => rw [tf_tick_nil hdw]
            | cons y rest =>
                have hy : y = tick := dropWhile_tick_head hdw
                subst hy
                rw [tf_tick_cons hdw] at hlen2 ⊢
                set q := t.takeWhile (fun d => d != tick) with hq
                set uq := (applyMappings REPLACEMENTS (q, 0)).1 with huq
                set out' := (transformBlocksF f rest).1 with hout
                have htickq : tick ∉ q := tick_not_mem_takeWhile
                have htickuq : tick ∉ uq :=
                  tick_applyMappings (fun m hm => (goodRP m hm).tickNew) htickq
                have hlt : t.length = q.length + 1 + rest.length := by
                  conv_lhs => rw [← List.takeWhile_append_dropWhile
                    (fun d => d != tick) t]
                  rw [hdw, ← hq]
                  simp
                  omega
                have hrl : rest.length ≤ f := by
                  rw [List.length_cons] at hlen
                  omega
                cases fuel2 with
                | zero => simp at hlen2
                | succ f2 =>
                    have hdw2 : (uq ++ tick :: out').dropWhile (fun d => d != tick) =
                        tick :: out' := (takeWhile_tick_of_append out' htickuq).2
                    rw [tf_tick_cons hdw2]
                    have htw2 : (uq ++ tick :: out').takeWhile (fun d => d != tick) = uq :=
                      (takeWhile_tick_of_append out' htickuq).1
                    rw [htw2]
                    have hnold : ∀ m ∈ REPLACEMENTS, ¬ m.1 <:+: uq :=
                      fun m hm => applyMappings_no_old goodRP m hm
                    have huqid : applyMappings REPLACEMENTS (uq, 0) = (uq, 0) :=
                      applyMappings_of_not_infix hnold
                    rw [huqid]
                    have hol : out'.length ≤ f2 := by
                      simp only [List.length_cons, List.length_append] at hlen2
                      omega
                    rw [ih rest hrl f2 hol]
                    simp
          · rw [tf_cons_ntick hx] at hlen2 ⊢
            cases fuel2 with
            | zero => simp at hlen2
            | succ f2 =>
                rw [tf_cons_ntick hx]
                have htl : t.length ≤ f := by
                  rw [List.length_cons] at hlen
                  omega
                have hol : (transformBlocksF f t).1.length ≤ f2 := by
                  rw [List.length_cons] at hlen2
                  omega
                rw [ih t htl f2 hol]

lemma dropWhile_tick_of_not_mem {b : List Char} (h : tick ∉ b) :
    b.dropWhile (fun d => d != tick) = [] := by
  rw [List.dropWhile_eq_nil_iff]
  intro x hx
  simp only [bne_iff_ne, ne_eq]
  intro he
  exact h (he ▸ hx)

/-- When the text ends in an unpaired backtick followed by backtick-free text,
the scan leaves that whole tail verbatim. -/
lemma tf_odd_tail : ∀ (fuel : Nat) (a b : List Char), tick ∉ b →
    a.count tick % 2 = 0 →
    ∃ a', (transformBlocksF fuel (a ++ tick :: b)).1 = a' ++ tick :: b := by
  intro fuel
  induction fuel with
  | zero => intro a b _ _; exact ⟨a, rfl⟩
  | succ f ih =>
      intro a b hb hcount
      cases a with
      | nil =>
          rw [List.nil_append, tf_tick_nil (dropWhile_tick_of_not_mem hb)]
          exact ⟨[], rfl⟩
      | cons x xs =>
          by_cases hx : x = tick
          · subst hx
            have hcx : xs.count tick % 2 = 1 := by
              rw [List.count_cons] at hcount
              simp at hcount
              omega
            have hmem : tick ∈ xs := by
              by_contra hnm
              rw [List.count_eq_zero.mpr hnm] at hcx
              simp at hcx
            have hdx := (takeWhile_append_of_tick_mem (tick :: b) hmem).2
            have htx := (takeWhile_append_of_tick_mem (tick :: b) hmem).1
            cases hdx0 : xs.dropWhile (fun d => d != tick) with
            | nil =>
                exact absurd (List.dropWhile_eq_nil_iff.mp hdx0 tick hmem) (by simp)
            | cons z rest0 =>
                have hz : z = tick := dropWhile_tick_head hdx0
                subst hz
                rw [hdx0] at hdx
                rw [List.cons_append] at hdx
                have hdw : (xs ++ tick :: b).dropWhile (fun d => d != tick) =
                    tick :: (rest0 ++ tick :: b) := hdx
                rw [List.cons_append, tf_tick_cons hdw]
                have hxs : xs = xs.takeWhile (fun d => d != tick) ++ tick :: rest0 := by
                  conv_lhs => rw [← List.takeWhile_append_dropWhile
                    (fun d => d != tick) xs]
                  rw [hdx0]
                have hcount0 : rest0.count tick % 2 = 0 := by
                  have h1 := congrArg (fun l => List.count tick l) hxs
                  simp only at h1
                  rw [List.count_append, List.count_cons,
                    List.count_eq_zero.mpr tick_not_mem_takeWhile] at h1
                  simp at h1
                  omega
                rcases ih rest0 b hb hcount0 with ⟨a3, h3⟩
                refine ⟨tick :: ((applyMappings REPLACEMENTS
                  ((xs ++ tick :: b).takeWhile (fun d => d != tick), 0)).1 ++
                    tick :: a3), ?_⟩
                rw [h3]
                simp
          · rw [List.cons_append, tf_cons_ntick hx]
            have hcx : xs.count tick % 2 = 0 := by
              rw [List.count_cons,
                if_neg (by simp only [beq_iff_eq]; exact fun he => hx he)] at hcount
              omega
            rcases ih xs b hb hcx with ⟨a2, h2⟩
            exact ⟨x :: a2, by rw [h2, List.cons_append]⟩

/-- When the backtick count is odd, every reported block ends at or before
the final backtick. -/
lemma ext_odd_tail : ∀ (fuel : Nat) (a b : List Char) (pos : Nat), tick ∉ b →
    a.count tick % 2 = 0 →
    ∀ m ∈ extractAux fuel (a ++ tick :: b) pos, m.2.1 ≤ pos + a.length + 1 := by
  intro fuel
  induction fuel with
  | zero => intro a b pos _ _ m hm; rw [ext_zero] at hm; exact absurd hm (List.not_mem_nil m)
  | succ f ih =>
      intro a b pos hb hcount m hm
      cases a with
      | nil =>
          rw [List.nil_append, ext_tick_nil (dropWhile_tick_of_not_mem hb)] at hm
          exact absurd hm (List.not_mem_nil m)
      | cons x xs =>
          by_cases hx : x = tick
          · subst hx
            have hcx : xs.count tick % 2 = 1 := by
              rw [List.count_cons] at hcount
              simp at hcount
              omega
            have hmem : tick ∈ xs := by
              by_contra hnm
              rw [List.count_eq_zero.mpr hnm] at hcx
              simp at hcx
            have hdx := (takeWhile_append_of_tick_mem (tick :: b) hmem).2
            have htx := (takeWhile_append_of_tick_mem (tick :: b) hmem).1
            cases hdx0 : xs.dropWhile (fun d => d != tick) with
            | nil =>
                exact absurd (List.dropWhile_eq_nil_iff.mp hdx0 tick hmem) (by simp)
            | cons z rest0 =>
                have hz : z = tick := dropWhile_tick_head hdx0
                subst hz
                rw [hdx0, List.cons_append] at hdx
                rw [List.cons_append, ext_tick_cons hdx] at hm
                have hxs : xs = xs.takeWhile (fun d => d != tick) ++ tick :: rest0 := by
                  conv_lhs => rw [← List.takeWhile_append_dropWhile
                    (fun d => d != tick) xs]
                  rw [hdx0]
                have hql : xs.length =
                    (xs.takeWhile (fun d => d != tick)).length + 1 + rest0.length := by
                  conv_lhs => rw [hxs]
                  simp
                  omega
                have hqeq : (xs ++ tick :: b).takeWhile (fun d => d != tick) =
                    xs.takeWhile (fun d => d != tick) := htx
                have hcount0 : rest0.count tick % 2 = 0 := by
                  have h1 := congrArg (fun l => List.count tick l) hxs
                  simp only at h1
                  rw [List.count_append, List.count_cons,
                    List.count_eq_zero.mpr tick_not_mem_takeWhile] at h1
                  simp at h1
                  omega
                rcases List.mem_cons.mp hm with he | hm'
                · subst he
                  simp only [hqeq]
                  simp [List.length_cons]
                  omega
                · have := ih rest0 b _ hb hcount0 m hm'
                  rw [hqeq] at hm' this
                  simp [List.length_cons]
                  omega
          · rw [List.cons_append, ext_cons_ntick hx] at hm
            have hcx : xs.count tick % 2 = 0 := by
              rw [List.count_cons,
                if_neg (by simp only [beq_iff_eq]; exact fun he => hx he)] at hcount
              omega
            have := ih xs b (pos + 1) hb hcx m hm
            rw [List.length_cons]
            omega

/-! ### Filesystem-level lemmas -/

lemma bak_ne (p : String) : p ++ ".bak" ≠ p := by
  intro h
  have h1 : (p ++ ".bak").data = p.data := congrArg String.data h
  rw [String.data_append] at h1
  have h2 := congrArg List.length h1
  rw [List.length_append] at h2
  simp at h2

lemma readFile_file {fs : FS} {p : String} {c : List Char} (h : fs p = .file c) :
    readFile fs p = .ok c := by
  unfold readFile
  rw [h]

lemma readFile_absent {fs : FS} {p : String} (h : fs p = .absent) :
    readFile fs p = .error (.fileNotFound p) := by
  unfold readFile
  rw [h]

lemma readFile_err {fs : FS} {p : String} (h : fs p = .ioError) :
    readFile fs p = .error (.ioFailure p) := by
  unfold readFile
  rw [h]

lemma writeFile_eq {fs : FS} {p : String} {c : List Char} (h : fs p ≠ .ioError) :
    writeFile fs p c = .ok (fun q => if q = p then .file c else fs q) := by
  unfold writeFile
  cases hfp : fs p with
  | absent => rfl
  | file d => rfl
  | ioError => exact absurd hfp h

lemma writeFile_err {fs : FS} {p : String} {c : List Char} (h : fs p = .ioError) :
    writeFile fs p c = .error (.ioFailure p) := by
  unfold writeFile
  rw [h]

/-- Full description of a successful `update_file` run on one file. -/
lemma update_file_spec {fs : FS} {p : String} {c : List Char}
    (hread : fs p = .file c) (hbak : fs (p ++ ".bak") ≠ .ioError) :
    ∃ fs2, update_file fs p = .ok (fs2, (updateFileContent c).2) ∧
      fs2 (p ++ ".bak") = .file c ∧
      fs2 p = .file (updateFileContent c).1 ∧
      (∀ q, q ≠ p → q ≠ p ++ ".bak" → fs2 q = fs q) := by
  unfold update_file
  simp only [readFile_file hread]
  simp only [writeFile_eq hbak]
  have hfs1p : (fun q => if q = p ++ ".bak" then FsEntry.file c else fs q) p =
      FsEntry.file c := by
    show (if p = p ++ ".bak" then FsEntry.file c else fs p) = FsEntry.file c
    rw [if_neg (Ne.symm (bak_ne p))]
    exact hread
  have hne : (fun q => if q = p ++ ".bak" then FsEntry.file c else fs q) p ≠
      FsEntry.ioError := by
    rw [hfs1p]
    intro h
    exact FsEntry.noConfusion h
  rw [writeFile_eq hne]
  refine ⟨_, rfl, ?_, ?_, ?_⟩
  · rw [if_neg (bak_ne p), if_pos rfl]
  · rw [if_pos rfl]
  · intro q hq hqb
    rw [if_neg hq, if_neg hqb]

/-- Full description of a successful `process_file` run on one file. -/
lemma process_file_spec {fs : FS} {p : String} {c : List Char}
    (hread : fs p = .file c) (hbak : fs (p ++ ".bak") ≠ .ioError) :
    ∃ fs2, process_file fs p = .ok (fs2, (update_sql_in_content c).2) ∧
      fs2 (p ++ ".bak") = .file c ∧
      fs2 p = .file (update_sql_in_content c).1 ∧
      (∀ q, q ≠ p → q ≠ p ++ ".bak" → fs2 q = fs q) := by
  unfold process_file
  simp only [readFile_file hread]
  simp only [writeFile_eq hbak]
  have hfs1p : (fun q => if q = p ++ ".bak" then FsEntry.file c else fs q) p =
      FsEntry.file c := by
    show (if p = p ++ ".bak" then FsEntry.file c else fs p) = FsEntry.file c
    rw [if_neg (Ne.symm (bak_ne p))]
    exact hread
  have hne : (fun q => if q = p ++ ".bak" then FsEntry.file c else fs q) p ≠
      FsEntry.ioError := by
    rw [hfs1p]
    intro h
    exact FsEntry.noConfusion h
  rw [writeFile_eq hne]
  refine ⟨_, rfl, ?_, ?_, ?_⟩
  · rw [if_neg (bak_ne p), if_pos rfl]
  · rw [if_pos rfl]
  · intro q hq hqb
    rw [if_neg hq, if_neg hqb]

lemma update_file_absent {fs : FS} {p : String} (h : fs p = .absent) :
    update_file fs p = .error (.fileNotFound p) := by
  unfold update_file
  rw [readFile_absent h]

lemma process_file_absent {fs : FS} {p : String} (h : fs p = .absent) :
    process_file fs p = .ok (fs, 0) := by
  unfold process_file
  rw [readFile_absent h]

lemma update_file_ioErr {fs : FS} {p : String} (h : fs p = .ioError) :
    update_file fs p = .error (.ioFailure p) := by
  unfold update_file
  rw [readFile_err h]

lemma process_file_ioErr {fs : FS} {p : String} (h : fs p = .ioError) :
    process_file fs p = .error (.ioFailure p) := by
  unfold process_file
  rw [readFile_err h]

lemma update_file_bakErr {fs : FS} {p : String} {c : List Char}
    (h : fs p = .file c) (hb : fs (p ++ ".bak") = .ioError) :
    update_file fs p = .error (.ioFailure (p ++ ".bak")) := by
  unfold update_file
  simp only [readFile_file h]
  simp only [writeFile_err hb]

lemma process_file_bakErr {fs : FS} {p : String} {c : List Char}
    (h : fs p = .file c) (hb : fs (p ++ ".bak") = .ioError) :
    process_file fs p = .error (.ioFailure (p ++ ".bak")) := by
  unfold process_file
  simp only [readFile_file h]
  simp only [writeFile_err hb]

lemma runFiles1_cons (fs : FS) (p : String) (rest : List String) :
    runFiles1 fs (p :: rest) =
      match update_file fs p with
      | .ok (fs', n) =>
          match runFiles1 fs' rest with
          | .ok (fs'', m) => .ok (fs'', n + m)
          | .error e => .error e
      | .error (.fileNotFound _) => runFiles1 fs rest
      | .error e => .error e := rfl

lemma runFiles2_cons (fs : FS) (p : String) (rest : List String) :
    runFiles2 fs (p :: rest) =
      match process_file fs p with
      | .ok (fs', n) =>
          match runFiles2 fs' rest with
          | .ok (fs'', m) => .ok (fs'', n + m)
          | .error e => .error e
      | .error e => .error e := rfl

lemma runFiles1_skip {fs : FS} {p : String} (rest : List String) (h : fs p = .absent) :
    runFiles1 fs (p :: rest) = runFiles1 fs rest := by
  rw [runFiles1_cons, update_file_absent h]

lemma runFiles2_skip {fs : FS} {p : String} (rest : List String) (h : fs p = .absent) :
    runFiles2 fs (p :: rest) = runFiles2 fs rest := by
  simp only [runFiles2_cons, process_file_absent h]
  cases hr : runFiles2 fs rest with
  | ok v =>
      rcases v with ⟨fs'', m⟩
      simp
  | error e => rfl

lemma runFiles1_abort {fs : FS} {p : String} (rest : List String) (h : fs p = .ioError) :
    runFiles1 fs (p :: rest) = .error (.ioFailure p) := by
  rw [runFiles1_cons, update_file_ioErr h]

lemma runFiles2_abort {fs : FS} {p : String} (rest : List String) (h : fs p = .ioError) :
    runFiles2 fs (p :: rest) = .error (.ioFailure p) := by
  rw [runFiles2_cons, process_file_ioErr h]

/-! ### Remaining support lemmas -/

lemma dropWhile_len {t rest : List Char} {y : Char}
    (hdw : t.dropWhile (fun d => d != tick) = y :: rest) :
    t.length = (t.takeWhile (fun d => d != tick)).length + 1 + rest.length := by
  conv_lhs => rw [← List.takeWhile_append_dropWhile (fun d => d != tick) t]
  rw [hdw]
  simp
  omega

lemma tf_fuel_irrel : ∀ (f1 : Nat) (c : List Char) (f2 : Nat),
    c.length ≤ f1 → c.length ≤ f2 →
    transformBlocksF f1 c = transformBlocksF f2 c := by
  intro f1
  induction f1 with
  | zero =>
      intro c f2 h1 _
      have hc : c = [] := List.length_eq_zero.mp (Nat.le_zero.mp h1)
      subst hc
      cases f2 with
      | zero => rfl
      | succ g => rfl
  | succ f ih =>
      intro c f2 h1 h2
      cases c with
      | nil =>
          cases f2 with
          | zero => rfl
          | succ g => rfl
      | cons x t =>
          cases f2 with
          | zero => simp at h2
          | succ g =>
              rw [List.length_cons] at h1 h2
              by_cases hx : x = tick
              · subst hx
                cases hdw : t.dropWhile (fun d => d != tick) with
                | nil => rw [tf_tick_nil hdw, tf_tick_nil hdw]
                | cons y rest =>
                    have hlt := dropWhile_len hdw
                    rw [tf_tick_cons hdw, tf_tick_cons hdw,
                      ih rest g (by omega) (by omega)]
              · rw [tf_cons_ntick hx, tf_cons_ntick hx, ih t g (by omega) (by omega)]

/-- On a text in which no old token occurs, the delimited scan is the
identity with a zero count. -/
lemma tf_of_not_infix : ∀ (fuel : Nat) {c : List Char},
    (∀ m ∈ REPLACEMENTS, ¬ m.1 <:+: c) → transformBlocksF fuel c = (c, 0) := by
  intro fuel
  induction fuel with
  | zero => intro c _; rfl
  | succ f ih =>
      intro c hno
      cases c with
      | nil => rfl
      | cons x t =>
          have hnt : ∀ m ∈ REPLACEMENTS, ¬ m.1 <:+: t :=
            fun m hm => not_infix_tail (hno m hm)
          by_cases hx : x = tick
          · subst hx
            cases hdw : t.dropWhile (fun d => d != tick) with
            | nil => rw [tf_tick_nil hdw]
            | cons y rest =>
                have hy : y = tick := dropWhile_tick_head hdw
                subst hy
                have ht : t = t.takeWhile (fun d => d != tick) ++ tick :: rest := by
                  conv_lhs => rw [← List.takeWhile_append_dropWhile
                    (fun d => d != tick) t]
                  rw [hdw]
                have hq : ∀ m ∈ REPLACEMENTS, ¬ m.1 <:+: t.takeWhile (fun d => d != tick) := by
                  intro m hm hinf
                  exact hnt m hm (hinf.trans
                    ⟨[], tick :: rest, by rw [List.nil_append, ← ht]⟩)
                have hrest : ∀ m ∈ REPLACEMENTS, ¬ m.1 <:+: rest := by
                  intro m hm hinf
                  refine hnt m hm (hinf.trans ?_)
                  refine ⟨t.takeWhile (fun d => d != tick) ++ [tick], [], ?_⟩
                  rw [List.append_nil, List.append_assoc, List.singleton_append, ← ht]
                rw [tf_tick_cons hdw, applyMappings_of_not_infix hq, ih hrest]
                conv_rhs => rw [ht]
                rfl
          · rw [tf_cons_ntick hx, ih hnt]

/-- First-block decomposition of the scan: backtick-free lead text is copied
verbatim, the first block is rewritten, and the scan continues on the tail. -/
lemma tf_first_block : ∀ (a : List Char) (fuel : Nat) (q b : List Char),
    tick ∉ a → tick ∉ q → (a ++ tick :: (q ++ tick :: b)).length ≤ fuel →
    transformBlocksF fuel (a ++ tick :: (q ++ tick :: b)) =
      (a ++ tick :: ((applyMappings REPLACEMENTS (q, 0)).1 ++ tick ::
        (transformBlocks b).1),
       (applyMappings REPLACEMENTS (q, 0)).2 + (transformBlocks b).2) := by
  intro a
  induction a with
  | nil =>
      intro fuel q b _ hq hlen
      rw [List.nil_append] at hlen ⊢
      cases fuel with
      | zero => simp at hlen
      | succ f =>
          have hdw : (q ++ tick :: b).dropWhile (fun d => d != tick) = tick :: b :=
            (takeWhile_tick_of_append b hq).2
          have htw : (q ++ tick :: b).takeWhile (fun d => d != tick) = q :=
            (takeWhile_tick_of_append b hq).1
          rw [tf_tick_cons hdw, htw]
          unfold transformBlocks
          rw [tf_fuel_irrel f b b.length (by simp at hlen; omega) (le_refl _)]
          rfl
  | cons x xs ih =>
      intro fuel q b ha hq hlen
      have hxt : ¬ x = tick := fun he => ha (he ▸ List.mem_cons_self x xs)
      cases fuel with
      | zero => simp at hlen
      | succ f =>
          rw [List.cons_append, tf_cons_ntick hxt,
            ih f q b (fun hm => ha (List.mem_cons_of_mem _ hm)) hq
              (by rw [List.cons_append, List.length_cons] at hlen; omega)]
          rw [List.cons_append]

/-- The whole-file pass is idempotent. -/
lemma ufc_idem (c : List Char) :
    updateFileContent ((updateFileContent c).1) = ((updateFileContent c).1, 0) := by
  unfold updateFileContent
  exact applyMappings_idem goodCM c 0

/-- The delimited pass is idempotent. -/
lemma usql_idem (c : List Char) :
    update_sql_in_content ((update_sql_in_content c).1) =
      ((update_sql_in_content c).1, 0) := by
  rw [update_eq_transformBlocks c, update_eq_transformBlocks ((transformBlocks c).1)]
  unfold transformBlocks
  exact tf_idem c.length c (le_refl _) _ (le_refl _)

/-! ### Concrete fixtures used by the claim witnesses -/

/-- The example text of the specification. -/
def demoText : List Char := "SELECT \"userId\", \"teamId\" FROM posts".toList

/-- A filesystem holding one target file. -/
def fsDemo : FS := fun q => if q = "a.go" then .file demoText else .absent

/-- A filesystem whose target file raises an unexpected I/O error on access. -/
def fsErr : FS := fun q => if q = "a.go" then .ioError else .absent

/-! ### Claim theorems -/

/-- C1, as stated, is false: in the input `` `"teamId"userId"` `` the token
`"userId"` occurs inside the single backtick-delimited block, yet the output
block is `team_iduserId"`: the occurrence is destroyed by the overlapping
`"teamId"` replacement and `user_id` never appears, so not every mapped old
token inside a block is replaced by its new token. -/
theorem claim_C1_counterexample :
    ("\"userId\"".toList <:+: "\"teamId\"userId\"".toList) ∧
    extract_sql_queries "`\"teamId\"userId\"`".toList =
      [(0, 17, "\"teamId\"userId\"".toList)] ∧
    (update_sql_in_content "`\"teamId\"userId\"`".toList).1 =
      "`team_iduserId\"`".toList ∧
    ¬ ("user_id".toList <:+: (update_sql_in_content "`\"teamId\"userId\"`".toList).1) := by
  refine ⟨by decide, by decide, by decide, by decide⟩

/-- C1 (amended): in delimited mode the text outside the blocks is preserved
verbatim (so occurrences of old tokens outside every block are untouched, and
a backtick-free text is returned unchanged with count zero), each block is
rewritten by the per-block replacement loop, and after the pass no mapped old
token remains inside any rewritten block — an occurrence inside a block may be
consumed by an earlier overlapping replacement rather than replaced by its own
new token. -/
theorem claim_C1_delimited (a q b : List Char) (ha : tick ∉ a) (hq : tick ∉ q) :
    update_sql_in_content (a ++ tick :: (q ++ tick :: b)) =
      (a ++ tick :: ((applyMappings REPLACEMENTS (q, 0)).1 ++ tick ::
        (update_sql_in_content b).1),
       (applyMappings REPLACEMENTS (q, 0)).2 + (update_sql_in_content b).2) ∧
    (∀ c : List Char, tick ∉ c → update_sql_in_content c = (c, 0)) ∧
    (∀ m ∈ REPLACEMENTS, ¬ m.1 <:+: (applyMappings REPLACEMENTS (q, 0)).1) := by
  refine ⟨?_, ?_, fun m hm => applyMappings_no_old goodRP m hm⟩
  · rw [update_eq_transformBlocks, update_eq_transformBlocks b]
    unfold transformBlocks
    exact tf_first_block a _ q b ha hq (le_refl _)
  · intro c hc
    rw [update_eq_transformBlocks]
    unfold transformBlocks
    exact tf_no_tick _ hc

theorem claim_C1_witness :
    (tick ∉ "g ".toList ∧ tick ∉ "\"userId\"".toList) ∧
    (update_sql_in_content ("g ".toList ++ tick ::
        ("\"userId\"".toList ++ tick :: "h".toList)) =
      ("g ".toList ++ tick ::
        ((applyMappings REPLACEMENTS ("\"userId\"".toList, 0)).1 ++ tick ::
          (update_sql_in_content "h".toList).1),
       (applyMappings REPLACEMENTS ("\"userId\"".toList, 0)).2 +
        (update_sql_in_content "h".toList).2) ∧
     (∀ c : List Char, tick ∉ c → update_sql_in_content c = (c, 0)) ∧
     (∀ m ∈ REPLACEMENTS,
        ¬ m.1 <:+: (applyMappings REPLACEMENTS ("\"userId\"".toList, 0)).1)) :=
  ⟨⟨by decide, by decide⟩,
    claim_C1_delimited "g ".toList "\"userId\"".toList "h".toList
      (by decide) (by decide)⟩

/-- C2, as stated, is false for the delimited variant: the example text
contains no backtick, so `update_sql_in_content` finds no block, returns the
text unchanged and reports zero replacements rather than the claimed output
and count 2. -/
theorem claim_C2_counterexample :
    update_sql_in_content "SELECT \"userId\", \"teamId\" FROM posts".toList ≠
      ("SELECT user_id, team_id FROM posts".toList, 2) := by decide

/-- C2 (amended): on the spec's example text the unrestricted variant
produces `SELECT user_id, team_id FROM posts` with count 2; the delimited
variant leaves the bare text unchanged with count 0, and produces the claimed
output with count 2 only when the text is wrapped in backticks. -/
theorem claim_C2_example :
    updateFileContent "SELECT \"userId\", \"teamId\" FROM posts".toList =
      ("SELECT user_id, team_id FROM posts".toList, 2) ∧
    update_sql_in_content "SELECT \"userId\", \"teamId\" FROM posts".toList =
      ("SELECT \"userId\", \"teamId\" FROM posts".toList, 0) ∧
    update_sql_in_content "`SELECT \"userId\", \"teamId\" FROM posts`".toList =
      ("`SELECT user_id, team_id FROM posts`".toList, 2) := by
  refine ⟨by decide, by decide, by decide⟩

/-- C3: for a readable target file, both scripts first write a `.bak` file
whose content is exactly the pre-run content of the target (at that point the
target itself is still unchanged — the backup precedes the mutation), and only
then overwrite the target with the completed in-memory replacement result;
no other path of the filesystem is touched. -/
theorem claim_C3_backup (fs : FS) (p : String) (c : List Char)
    (hread : fs p = .file c) (hbak : fs (p ++ ".bak") ≠ .ioError) :
    (∀ fs1, writeFile fs (p ++ ".bak") c = .ok fs1 →
      fs1 p = .file c ∧ fs1 (p ++ ".bak") = .file c) ∧
    (∃ fs2, update_file fs p = .ok (fs2, (updateFileContent c).2) ∧
      fs2 (p ++ ".bak") = .file c ∧ fs2 p = .file (updateFileContent c).1 ∧
      ∀ q, q ≠ p → q ≠ p ++ ".bak" → fs2 q = fs q) ∧
    (∃ fs2, process_file fs p = .ok (fs2, (update_sql_in_content c).2) ∧
      fs2 (p ++ ".bak") = .file c ∧ fs2 p = .file (update_sql_in_content c).1 ∧
      ∀ q, q ≠ p → q ≠ p ++ ".bak" → fs2 q = fs q) := by
  refine ⟨?_, update_file_spec hread hbak, process_file_spec hread hbak⟩
  intro fs1 h
  rw [writeFile_eq hbak] at h
  injection h with h'
  subst h'
  constructor
  · show (if p = p ++ ".bak" then FsEntry.file c else fs p) = .file c
    rw [if_neg (Ne.symm (bak_ne p)), hread]
  · show (if p ++ ".bak" = p ++ ".bak" then FsEntry.file c else fs (p ++ ".bak")) = .file c
    rw [if_pos rfl]

theorem claim_C3_witness :
    (fsDemo "a.go" = .file demoText ∧ fsDemo ("a.go" ++ ".bak") ≠ .ioError) ∧
    ((∀ fs1, writeFile fsDemo ("a.go" ++ ".bak") demoText = .ok fs1 →
        fs1 "a.go" = .file demoText ∧ fs1 ("a.go" ++ ".bak") = .file demoText) ∧
     (∃ fs2, update_file fsDemo "a.go" = .ok (fs2, (updateFileContent demoText).2) ∧
        fs2 ("a.go" ++ ".bak") = .file demoText ∧
        fs2 "a.go" = .file (updateFileContent demoText).1 ∧
        ∀ q, q ≠ "a.go" → q ≠ "a.go" ++ ".bak" → fs2 q = fsDemo q) ∧
     (∃ fs2, process_file fsDemo "a.go" = .ok (fs2, (update_sql_in_content demoText).2) ∧
        fs2 ("a.go" ++ ".bak") = .file demoText ∧
        fs2 "a.go" = .file (update_sql_in_content demoText).1 ∧
        ∀ q, q ≠ "a.go" → q ≠ "a.go" ++ ".bak" → fs2 q = fsDemo q)) :=
  ⟨⟨by decide, by decide⟩,
    claim_C3_backup fsDemo "a.go" demoText (by decide) (by decide)⟩

/-- C4: both replacement passes are idempotent — applied to their own output
they return the text unchanged with a reported count of zero, because no
mapped old token remains after a pass. -/
theorem claim_C4_idempotent (content : List Char) :
    updateFileContent (updateFileContent content).1 =
      ((updateFileContent content).1, 0) ∧
    update_sql_in_content (update_sql_in_content content).1 =
      ((update_sql_in_content content).1, 0) :=
  ⟨ufc_idem content, usql_idem content⟩

/-- C5: an unexpected I/O failure — a failing read, or a failing write of the
backup — aborts the whole run of either script at the offending file: the
result is an error naming that file and the remaining files are never
processed (the result does not depend on `rest`). -/
theorem claim_C5_abort (fs : FS) (p : String) (rest : List String) :
    (fs p = .ioError →
      runFiles1 fs (p :: rest) = .error (.ioFailure p) ∧
      runFiles2 fs (p :: rest) = .error (.ioFailure p)) ∧
    (∀ c, fs p = .file c → fs (p ++ ".bak") = .ioError →
      runFiles1 fs (p :: rest) = .error (.ioFailure (p ++ ".bak")) ∧
      runFiles2 fs (p :: rest) = .error (.ioFailure (p ++ ".bak"))) := by
  constructor
  · intro h
    exact ⟨runFiles1_abort rest h, runFiles2_abort rest h⟩
  · intro c h hb
    constructor
    · rw [runFiles1_cons, update_file_bakErr h hb]
    · rw [runFiles2_cons, process_file_bakErr h hb]

theorem claim_C5_witness :
    fsErr "a.go" = .ioError ∧
    (runFiles1 fsErr ["a.go", "b.go"] = .error (.ioFailure "a.go") ∧
     runFiles2 fsErr ["a.go", "b.go"] = .error (.ioFailure "a.go")) :=
  ⟨by decide, (claim_C5_abort fsErr "a.go" ["b.go"]).1 (by decide)⟩

/-- C6: a missing target file does not terminate either run: the per-file
operation reports the skip (script 1 raises `FileNotFoundError`, caught in
`main`; script 2 returns count 0), contributes zero to the total, and the run
continues exactly as the run over the remaining files. -/
theorem claim_C6_skip (fs : FS) (p : String) (rest : List String)
    (h : fs p = .absent) :
    runFiles1 fs (p :: rest) = runFiles1 fs rest ∧
    runFiles2 fs (p :: rest) = runFiles2 fs rest ∧
    update_file fs p = .error (.fileNotFound p) ∧
    process_file fs p = .ok (fs, 0) :=
  ⟨runFiles1_skip rest h, runFiles2_skip rest h,
    update_file_absent h, process_file_absent h⟩

theorem claim_C6_witness :
    fsDemo "missing.go" = .absent ∧
    (runFiles1 fsDemo ["missing.go", "a.go"] = runFiles1 fsDemo ["a.go"] ∧
     runFiles2 fsDemo ["missing.go", "a.go"] = runFiles2 fsDemo ["a.go"] ∧
     update_file fsDemo "missing.go" = .error (.fileNotFound "missing.go") ∧
     process_file fsDemo "missing.go" = .ok (fsDemo, 0)) :=
  ⟨by decide, claim_C6_skip fsDemo "missing.go" ["a.go"] (by decide)⟩

/-- C7: on a text containing no occurrence of any mapped old token, both
passes return the text unchanged and report zero replacements. -/
theorem claim_C7_no_tokens (content : List Char)
    (h1 : ∀ m ∈ COLUMN_MAPPINGS, ¬ m.1 <:+: content)
    (h2 : ∀ m ∈ REPLACEMENTS, ¬ m.1 <:+: content) :
    updateFileContent content = (content, 0) ∧
    update_sql_in_content content = (content, 0) := by
  constructor
  · exact applyMappings_of_not_infix h1
  · rw [update_eq_transformBlocks]
    unfold transformBlocks
    exact tf_of_not_infix _ h2

theorem claim_C7_witness :
    ((∀ m ∈ COLUMN_MAPPINGS, ¬ m.1 <:+: "SELECT id FROM posts".toList) ∧
     (∀ m ∈ REPLACEMENTS, ¬ m.1 <:+: "SELECT id FROM posts".toList)) ∧
    (updateFileContent "SELECT id FROM posts".toList =
      ("SELECT id FROM posts".toList, 0) ∧
     update_sql_in_content "SELECT id FROM posts".toList =
      ("SELECT id FROM posts".toList, 0)) :=
  ⟨⟨by decide, by decide⟩,
    claim_C7_no_tokens "SELECT id FROM posts".toList (by decide) (by decide)⟩

/-- C9: each script unconditionally rewrites `F.bak` with `F`'s current
content on every run, even a run that makes zero replacements; hence after a
second consecutive run the backup holds the once-transformed text, and when
the transformation changed the text the original content is no longer in the
backup. -/
theorem claim_C9_backup_loss (fs : FS) (p : String) (c : List Char)
    (hread : fs p = .file c) (hbak : fs (p ++ ".bak") ≠ .ioError) :
    (∃ fs1 fs2,
      update_file fs p = .ok (fs1, (updateFileContent c).2) ∧
      fs1 (p ++ ".bak") = .file c ∧
      update_file fs1 p = .ok (fs2, 0) ∧
      fs2 (p ++ ".bak") = .file (updateFileContent c).1 ∧
      ((updateFileContent c).1 ≠ c → fs2 (p ++ ".bak") ≠ .file c)) ∧
    (∃ fs1 fs2,
      process_file fs p = .ok (fs1, (update_sql_in_content c).2) ∧
      fs1 (p ++ ".bak") = .file c ∧
      process_file fs1 p = .ok (fs2, 0) ∧
      fs2 (p ++ ".bak") = .file (update_sql_in_content c).1 ∧
      ((update_sql_in_content c).1 ≠ c → fs2 (p ++ ".bak") ≠ .file c)) := by
  constructor
  · obtain ⟨fs1, hrun, hbak1, htarget1, hframe⟩ := update_file_spec hread hbak
    have hb1 : fs1 (p ++ ".bak") ≠ .ioError := by
      rw [hbak1]
      exact fun hx => FsEntry.noConfusion hx
    obtain ⟨fs2, hrun2, hbak2, htarget2, hframe2⟩ := update_file_spec htarget1 hb1
    simp only [ufc_idem c] at hrun2 hbak2
    refine ⟨fs1, fs2, hrun, hbak1, hrun2, hbak2, ?_⟩
    intro hneq hcontra
    have h3 := hcontra.symm.trans hbak2
    injection h3 with h4
    exact hneq h4.symm
  · obtain ⟨fs1, hrun, hbak1, htarget1, hframe⟩ := process_file_spec hread hbak
    have hb1 : fs1 (p ++ ".bak") ≠ .ioError := by
      rw [hbak1]
      exact fun hx => FsEntry.noConfusion hx
    obtain ⟨fs2, hrun2, hbak2, htarget2, hframe2⟩ := process_file_spec htarget1 hb1
    simp only [usql_idem c] at hrun2 hbak2
    refine ⟨fs1, fs2, hrun, hbak1, hrun2, hbak2, ?_⟩
    intro hneq hcontra
    have h3 := hcontra.symm.trans hbak2
    injection h3 with h4
    exact hneq h4.symm

theorem claim_C9_witness :
    (fsDemo "a.go" = .file demoText ∧ fsDemo ("a.go" ++ ".bak") ≠ .ioError) ∧
    ((∃ fs1 fs2,
      update_file fsDemo "a.go" = .ok (fs1, (updateFileContent demoText).2) ∧
      fs1 ("a.go" ++ ".bak") = .file demoText ∧
      update_file fs1 "a.go" = .ok (fs2, 0) ∧
      fs2 ("a.go" ++ ".bak") = .file (updateFileContent demoText).1 ∧
      ((updateFileContent demoText).1 ≠ demoText →
        fs2 ("a.go" ++ ".bak") ≠ .file demoText)) ∧
     (∃ fs1 fs2,
      process_file fsDemo "a.go" = .ok (fs1, (update_sql_in_content demoText).2) ∧
      fs1 ("a.go" ++ ".bak") = .file demoText ∧
      process_file fs1 "a.go" = .ok (fs2, 0) ∧
      fs2 ("a.go" ++ ".bak") = .file (update_sql_in_content demoText).1 ∧
      ((update_sql_in_content demoText).1 ≠ demoText →
        fs2 ("a.go" ++ ".bak") ≠ .file demoText))) :=
  ⟨⟨by decide, by decide⟩,
    claim_C9_backup_loss fsDemo "a.go" demoText (by decide) (by decide)⟩

/-- C10: when the input contains an odd number of backticks, everything after
the final unpaired backtick lies in no extracted block (every block ends at
or before that backtick) and is reproduced verbatim after the final backtick
of the output. -/
theorem claim_C10_odd (a b : List Char) (hb : tick ∉ b)
    (hodd : Odd ((a ++ tick :: b).count tick)) :
    (∃ a', (update_sql_in_content (a ++ tick :: b)).1 = a' ++ tick :: b) ∧
    ∀ m ∈ extract_sql_queries (a ++ tick :: b), m.2.1 ≤ a.length + 1 := by
  have hmod : a.count tick % 2 = 0 := by
    rw [Nat.odd_iff, List.count_append, List.count_cons,
      List.count_eq_zero.mpr hb] at hodd
    simp at hodd
    omega
  constructor
  · rw [update_eq_transformBlocks]
    unfold transformBlocks
    exact tf_odd_tail _ a b hb hmod
  · intro m hm
    have := ext_odd_tail (a ++ tick :: b).length a b 0 hb hmod m hm
    omega

theorem claim_C10_witness :
    (tick ∉ "z \"teamId\" w".toList ∧
      Odd (("x`q`y".toList ++ tick :: "z \"teamId\" w".toList).count tick)) ∧
    ((∃ a', (update_sql_in_content ("x`q`y".toList ++ tick ::
        "z \"teamId\" w".toList)).1 = a' ++ tick :: "z \"teamId\" w".toList) ∧
     ∀ m ∈ extract_sql_queries ("x`q`y".toList ++ tick :: "z \"teamId\" w".toList),
        m.2.1 ≤ "x`q`y".toList.length + 1) :=
  ⟨⟨by decide, by decide⟩,
    claim_C10_odd "x`q`y".toList "z \"teamId\" w".toList (by decide) (by decide)⟩

/-! ### Order of mappings: fuel-irrelevance and decomposition of the scans -/

lemma replF_fuel_irrel : ∀ (f1 : Nat) (t : List Char) (f2 : Nat) {o n : List Char},
    o ≠ [] → t.length ≤ f1 → t.length ≤ f2 →
    replF o n f1 t = replF o n f2 t := by
  intro f1
  induction f1 with
  | zero =>
      intro t f2 o n ho h1 _
      have ht : t = [] := List.length_eq_zero.mp (Nat.le_zero.mp h1)
      subst ht
      cases f2 with
      | zero => rfl
      | succ g => rfl
  | succ f ih =>
      intro t f2 o n ho h1 h2
      cases t with
      | nil => cases f2 with | zero => rfl | succ g => rfl
      | cons c s =>
          cases f2 with
          | zero => simp at h2
          | succ g =>
              rw [List.length_cons] at h1 h2
              have hol : 1 ≤ o.length := by
                cases o with
                | nil => exact absurd rfl ho
                | cons _ _ => simp
              by_cases hp : pfx o (c :: s) = true
              · simp only [replF]
                rw [if_pos hp, if_pos hp]
                have hd1 : ((c :: s).drop o.length).length ≤ f := by
                  rw [List.length_drop, List.length_cons]
                  omega
                have hd2 : ((c :: s).drop o.length).length ≤ g := by
                  rw [List.length_drop, List.length_cons]
                  omega
                rw [ih _ g ho hd1 hd2]
              · simp only [replF]
                rw [if_neg hp, if_neg hp, ih s g ho (by omega) (by omega)]

lemma countF_fuel_irrel : ∀ (f1 : Nat) (t : List Char) (f2 : Nat) {o : List Char},
    o ≠ [] → t.length ≤ f1 → t.length ≤ f2 →
    countF o f1 t = countF o f2 t := by
  intro f1
  induction f1 with
  | zero =>
      intro t f2 o ho h1 _
      have ht : t = [] := List.length_eq_zero.mp (Nat.le_zero.mp h1)
      subst ht
      cases f2 with
      | zero => rfl
      | succ g => rfl
  | succ f ih =>
      intro t f2 o ho h1 h2
      cases t with
      | nil => cases f2 with | zero => rfl | succ g => rfl
      | cons c s =>
          cases f2 with
          | zero => simp at h2
          | succ g =>
              rw [List.length_cons] at h1 h2
              have hol : 1 ≤ o.length := by
                cases o with
                | nil => exact absurd rfl ho
                | cons _ _ => simp
              by_cases hp : pfx o (c :: s) = true
              · simp only [countF]
                rw [if_pos hp, if_pos hp]
                have hd1 : ((c :: s).drop o.length).length ≤ f := by
                  rw [List.length_drop, List.length_cons]
                  omega
                have hd2 : ((c :: s).drop o.length).length ≤ g := by
                  rw [List.length_drop, List.length_cons]
                  omega
                rw [ih _ g ho hd1 hd2]
              · simp only [countF]
                rw [if_neg hp, if_neg hp, ih s g ho (by omega) (by omega)]

lemma occursAt_zero {p s : List Char} : occursAt p s 0 ↔ p <+: s := by
  unfold occursAt
  rw [List.drop_zero]

lemma occursAt_lt {p s : List Char} {i : Nat} (hp : p ≠ []) (h : occursAt p s i) :
    i < s.length := by
  unfold occursAt at h
  by_contra hge
  rw [List.drop_eq_nil_of_le (by omega)] at h
  exact hp (List.prefix_nil.mp h)

lemma pyReplace_cons_no {c : Char} {t o n : List Char} (h : ¬ pfx o (c :: t) = true) :
    pyReplace (c :: t) o n = c :: pyReplace t o n := by
  show replF o n ((c :: t).length) (c :: t) = c :: replF o n t.length t
  rw [show (c :: t).length = t.length + 1 from rfl]
  simp only [replF]
  rw [if_neg h]

lemma pyCount_cons_no {c : Char} {t o : List Char} (h : ¬ pfx o (c :: t) = true) :
    pyCount (c :: t) o = pyCount t o := by
  show countF o ((c :: t).length) (c :: t) = countF o t.length t
  rw [show (c :: t).length = t.length + 1 from rfl]
  simp only [countF]
  rw [if_neg h]

lemma pyReplace_match {o t n : List Char} (ho : o ≠ []) :
    pyReplace (o ++ t) o n = n ++ pyReplace t o n := by
  cases o with
  | nil => exact absurd rfl ho
  | cons oh ot =>
      show replF (oh :: ot) n (((oh :: ot) ++ t).length) ((oh :: ot) ++ t) =
        n ++ pyReplace t (oh :: ot) n
      rw [List.cons_append,
        show ((oh :: (ot ++ t)).length) = (ot ++ t).length + 1 from rfl]
      simp only [replF]
      rw [if_pos ((pfx_iff _ _).mpr
        (List.cons_prefix_cons.mpr ⟨rfl, List.prefix_append ot t⟩))]
      have hdrop : (oh :: (ot ++ t)).drop (oh :: ot).length = t := by
        rw [List.length_cons, List.drop_succ_cons, List.drop_left]
      rw [hdrop,
        replF_fuel_irrel (ot ++ t).length t t.length (by simp)
          (by rw [List.length_append]; omega) (le_refl _)]
      rfl

lemma pyCount_match {o t : List Char} (ho : o ≠ []) :
    pyCount (o ++ t) o = 1 + pyCount t o := by
  cases o with
  | nil => exact absurd rfl ho
  | cons oh ot =>
      show countF (oh :: ot) (((oh :: ot) ++ t).length) ((oh :: ot) ++ t) =
        1 + pyCount t (oh :: ot)
      rw [List.cons_append,
        show ((oh :: (ot ++ t)).length) = (ot ++ t).length + 1 from rfl]
      simp only [countF]
      rw [if_pos ((pfx_iff _ _).mpr
        (List.cons_prefix_cons.mpr ⟨rfl, List.prefix_append ot t⟩))]
      have hdrop : (oh :: (ot ++ t)).drop (oh :: ot).length = t := by
        rw [List.length_cons, List.drop_succ_cons, List.drop_left]
      rw [hdrop,
        countF_fuel_irrel (ot ++ t).length t t.length (by simp)
          (by rw [List.length_append]; omega) (le_refl _)]
      rfl

lemma pyReplace_skip : ∀ (a : List Char) {b o n : List Char}, o ≠ [] →
    (∀ i, i < a.length → ¬ occursAt o (a ++ b) i) →
    pyReplace (a ++ b) o n = a ++ pyReplace b o n := by
  intro a
  induction a with
  | nil => intro b o n _ _; rw [List.nil_append, List.nil_append]
  | cons c a' ih =>
      intro b o n ho h
      have h0 : ¬ pfx o (c :: (a' ++ b)) = true := by
        intro hp
        refine h 0 (by simp) ?_
        rw [List.cons_append]
        exact occursAt_zero.mpr ((pfx_iff _ _).mp hp)
      rw [List.cons_append, List.cons_append, pyReplace_cons_no h0]
      rw [ih ho ?_]
      intro i hi hocc
      refine h (i + 1) (by rw [List.length_cons]; omega) ?_
      rw [List.cons_append]
      exact occursAt_cons_succ.mpr hocc

lemma pyCount_skip : ∀ (a : List Char) {b o : List Char}, o ≠ [] →
    (∀ i, i < a.length → ¬ occursAt o (a ++ b) i) →
    pyCount (a ++ b) o = pyCount b o := by
  intro a
  induction a with
  | nil => intro b o _ _; rw [List.nil_append]
  | cons c a' ih =>
      intro b o ho h
      have h0 : ¬ pfx o (c :: (a' ++ b)) = true := by
        intro hp
        refine h 0 (by simp) ?_
        rw [List.cons_append]
        exact occursAt_zero.mpr ((pfx_iff _ _).mp hp)
      rw [List.cons_append, pyCount_cons_no h0]
      rw [ih ho ?_]
      intro i hi hocc
      refine h (i + 1) (by rw [List.length_cons]; omega) ?_
      rw [List.cons_append]
      exact occursAt_cons_succ.mpr hocc

/-- No two (pairwise distinct) occurrences of the tokens `o1` and `o2`
overlap in `s`. -/
def NT2 (o1 o2 s : List Char) : Prop :=
  ∀ i, i < s.length → ∀ j, j < s.length →
    ¬ (occursAt o1 s i ∧ occursAt o2 s j ∧ (i ≠ j ∨ o1 ≠ o2) ∧
        ¬ (i + o1.length ≤ j ∨ j + o2.length ≤ i))

instance (o1 o2 s : List Char) : Decidable (NT2 o1 o2 s) := by
  unfold NT2 occursAt
  infer_instance

/-- No two distinct occurrences of mapped old tokens overlap in `s`. -/
def NoTouch (ms : List (List Char × List Char)) (s : List Char) : Prop :=
  ∀ m1 ∈ ms, ∀ m2 ∈ ms, NT2 m1.1 m2.1 s

instance (ms : List (List Char × List Char)) (s : List Char) :
    Decidable (NoTouch ms s) := by
  unfold NoTouch
  infer_instance

lemma NT2_elim {o1 o2 s : List Char} (h : NT2 o1 o2 s) {i j : Nat}
    (hi : i < s.length) (hj : j < s.length)
    (h1 : occursAt o1 s i) (h2 : occursAt o2 s j)
    (hne : i ≠ j ∨ o1 ≠ o2) : i + o1.length ≤ j ∨ j + o2.length ≤ i := by
  by_contra hc
  exact h i hi j hj ⟨h1, h2, hne, hc⟩

lemma NT2_intro {o1 o2 s : List Char}
    (h : ∀ i, i < s.length → ∀ j, j < s.length → occursAt o1 s i → occursAt o2 s j →
      (i ≠ j ∨ o1 ≠ o2) → i + o1.length ≤ j ∨ j + o2.length ≤ i) : NT2 o1 o2 s := by
  intro i hi j hj hc
  exact absurd (h i hi j hj hc.1 hc.2.1 hc.2.2.1) hc.2.2.2

lemma NT2_symm {o1 o2 s : List Char} (h : NT2 o1 o2 s) : NT2 o2 o1 s := by
  refine NT2_intro ?_
  intro i hi j hj h1 h2 hne
  have hne' : j ≠ i ∨ o1 ≠ o2 := by
    rcases hne with hij | hoo
    · exact Or.inl (Ne.symm hij)
    · exact Or.inr (Ne.symm hoo)
  rcases NT2_elim h hj hi h2 h1 hne' with hc | hc
  · exact Or.inr hc
  · exact Or.inl hc

lemma occursAt_drop {p s : List Char} {k i : Nat} :
    occursAt p (s.drop k) i ↔ occursAt p s (k + i) := by
  unfold occursAt
  rw [List.drop_drop]

lemma NT2_drop {o1 o2 s : List Char} (k : Nat) (h : NT2 o1 o2 s)
    (h1 : o1 ≠ []) (h2 : o2 ≠ []) : NT2 o1 o2 (s.drop k) := by
  refine NT2_intro ?_
  intro i _ j _ ho1 ho2 hne
  have ho1' := occursAt_drop.mp ho1
  have ho2' := occursAt_drop.mp ho2
  have hi' := occursAt_lt h1 ho1'
  have hj' := occursAt_lt h2 ho2'
  have hne' : k + i ≠ k + j ∨ o1 ≠ o2 := by
    rcases hne with hij | hoo
    · exact Or.inl (by omega)
    · exact Or.inr hoo
  rcases NT2_elim h hi' hj' ho1' ho2' hne' with hc | hc
  · exact Or.inl (by omega)
  · exact Or.inr (by omega)

lemma no_occ_in_new {o2 n X : List Char} (hh : o2.head? = some dq) (hn : dq ∉ n) :
    ∀ i, i < n.length → ¬ occursAt o2 (n ++ X) i := by
  intro i hi hocc
  exact hn (occursAt_head_mem hh hi hocc)

lemma not_pfx_cons_replF {c : Char} {t o o' n' : List Char}
    (hlast : o.getLast? = some dq) (husc : usc ∉ o) (hlen : 2 ≤ o.length)
    (hdqn : dq ∉ n') (huscn : usc ∈ n')
    (hnp : ¬ o <+: c :: t) : ¬ pfx o (c :: replF o' n' t.length t) = true := by
  intro hp
  have h := (pfx_iff _ _).mp hp
  cases o with
  | nil => simp at hlen
  | cons oh ot =>
      rcases List.cons_prefix_cons.mp h with ⟨he, hot⟩
      subst he
      cases ot with
      | nil => simp at hlen
      | cons y ys =>
          have hlast' : (y :: ys).getLast? = some dq := by
            rwa [getLast?_cons_ne_nil (by simp)] at hlast
          have husc' : usc ∉ y :: ys := fun hm => husc (List.mem_cons_of_mem _ hm)
          have := pre_replF t.length hlast' husc' hdqn huscn hot
          exact hnp (List.cons_prefix_cons.mpr ⟨rfl, this⟩)

/-- Replacing `o1` does not change the number of occurrences of a different
token `o2` when no two distinct token occurrences overlap. -/
lemma pyCount_pres : ∀ (len : Nat) (s : List Char), s.length ≤ len →
    ∀ {o1 n1 o2 n2 : List Char}, GoodPair o1 n1 → GoodPair o2 n2 → o1 ≠ o2 →
    NT2 o1 o2 s → pyCount (pyReplace s o1 n1) o2 = pyCount s o2 := by
  intro len
  induction len with
  | zero =>
      intro s hlen o1 n1 o2 n2 _ _ _ _
      have hs : s = [] := List.length_eq_zero.mp (Nat.le_zero.mp hlen)
      subst hs
      rfl
  | succ L ih =>
      intro s hlen o1 n1 o2 n2 g1 g2 hne hnt
      cases hs : s with
      | nil => subst hs; rfl
      | cons c t =>
          subst hs
          by_cases h1 : occursAt o1 (c :: t) 0
          · -- s = o1 ++ t1
            rcases occursAt_zero.mp h1 with ⟨t1, hdec⟩
            have hnocc2 : ∀ i, i < o1.length → ¬ occursAt o2 (c :: t) i := by
              intro i hi hocc
              have hi' := occursAt_lt g2.oldNeNil hocc
              have h0 := occursAt_lt g1.oldNeNil h1
              have h2pos : 0 < o2.length := List.length_pos.mpr g2.oldNeNil
              rcases NT2_elim hnt h0 hi' h1 hocc (Or.inr hne) with hc | hc
              · omega
              · omega
            have hrepl1 : pyReplace (c :: t) o1 n1 =
                n1 ++ pyReplace t1 o1 n1 := by
              rw [← hdec]
              exact pyReplace_match g1.oldNeNil
            have ht1 : (c :: t).drop o1.length = t1 := by
              rw [← hdec, List.drop_left]
            have hnt1 : NT2 o1 o2 t1 := by
              rw [← ht1]
              exact NT2_drop _ hnt g1.oldNeNil g2.oldNeNil
            have hlent1 : t1.length ≤ L := by
              have := congrArg List.length hdec
              rw [List.length_append, List.length_cons] at this
              rw [List.length_cons] at hlen
              have := g1.len2
              omega
            rw [hrepl1,
              pyCount_skip n1 g2.oldNeNil (no_occ_in_new g2.headDq g1.dqNew),
              ih t1 hlent1 g1 g2 hne hnt1]
            conv_rhs => rw [← hdec]
            rw [pyCount_skip o1 g2.oldNeNil (by rw [hdec]; exact hnocc2)]
          · by_cases h2 : occursAt o2 (c :: t) 0
            · -- s = o2 ++ t2
              rcases occursAt_zero.mp h2 with ⟨t2, hdec⟩
              have hnocc1 : ∀ i, i < o2.length → ¬ occursAt o1 (c :: t) i := by
                intro i hi hocc
                have hi' := occursAt_lt g1.oldNeNil hocc
                have h0 := occursAt_lt g2.oldNeNil h2
                have h1pos : 0 < o1.length := List.length_pos.mpr g1.oldNeNil
                have hiz : i ≠ 0 := fun he => h1 (he ▸ hocc)
                rcases NT2_elim hnt hi' h0 hocc h2 (Or.inl hiz) with hc | hc
                · omega
                · omega
              have ht2 : (c :: t).drop o2.length = t2 := by
                rw [← hdec, List.drop_left]
              have hnt2 : NT2 o1 o2 t2 := by
                rw [← ht2]
                exact NT2_drop _ hnt g1.oldNeNil g2.oldNeNil
              have hlent2 : t2.length ≤ L := by
                have := congrArg List.length hdec
                rw [List.length_append, List.length_cons] at this
                rw [List.length_cons] at hlen
                have := g2.len2
                omega
              have hrepl1 : pyReplace (c :: t) o1 n1 =
                  o2 ++ pyReplace t2 o1 n1 := by
                conv_lhs => rw [← hdec]
                exact pyReplace_skip o2 g1.oldNeNil (by rw [hdec]; exact hnocc1)
              rw [hrepl1, pyCount_match g2.oldNeNil, ih t2 hlent2 g1 g2 hne hnt2]
              conv_rhs => rw [← hdec]
              rw [pyCount_match g2.oldNeNil]
            · -- neither occurs at the head
              have hp1 : ¬ pfx o1 (c :: t) = true :=
                fun hp => h1 (occursAt_zero.mpr ((pfx_iff _ _).mp hp))
              have hnp2 : ¬ o2 <+: c :: t :=
                fun hp => h2 (occursAt_zero.mpr hp)
              rw [pyReplace_cons_no hp1]
              have hR : pyReplace t o1 n1 = replF o1 n1 t.length t := rfl
              have hp2' : ¬ pfx o2 (c :: pyReplace t o1 n1) = true := by
                rw [hR]
                exact not_pfx_cons_replF g2.lastDq g2.uscOld g2.len2
                  g1.dqNew g1.uscNew hnp2
              rw [pyCount_cons_no hp2',
                ih t (by rw [List.length_cons] at hlen; omega) g1 g2 hne
                  (NT2_drop 1 hnt g1.oldNeNil g2.oldNeNil),
                pyCount_cons_no (fun hp => h2 (occursAt_zero.mpr ((pfx_iff _ _).mp hp)))]

/-- Replacing two different tokens commutes when no two distinct token
occurrences overlap. -/
lemma pyReplace_comm : ∀ (len : Nat) (s : List Char), s.length ≤ len →
    ∀ {o1 n1 o2 n2 : List Char}, GoodPair o1 n1 → GoodPair o2 n2 → o1 ≠ o2 →
    NT2 o1 o2 s →
    pyReplace (pyReplace s o1 n1) o2 n2 = pyReplace (pyReplace s o2 n2) o1 n1 := by
  intro len
  induction len with
  | zero =>
      intro s hlen o1 n1 o2 n2 _ _ _ _
      have hs : s = [] := List.length_eq_zero.mp (Nat.le_zero.mp hlen)
      subst hs
      rfl
  | succ L ih =>
      intro s hlen o1 n1 o2 n2 g1 g2 hne hnt
      cases hs : s with
      | nil => subst hs; rfl
      | cons c t =>
          subst hs
          by_cases h1 : occursAt o1 (c :: t) 0
          · rcases occursAt_zero.mp h1 with ⟨t1, hdec⟩
            have hnocc2 : ∀ i, i < o1.length → ¬ occursAt o2 (c :: t) i := by
              intro i hi hocc
              have hi' := occursAt_lt g2.oldNeNil hocc
              have h0 := occursAt_lt g1.oldNeNil h1
              have h2pos : 0 < o2.length := List.length_pos.mpr g2.oldNeNil
              rcases NT2_elim hnt h0 hi' h1 hocc (Or.inr hne) with hc | hc
              · omega
              · omega
            have ht1 : (c :: t).drop o1.length = t1 := by
              rw [← hdec, List.drop_left]
            have hnt1 : NT2 o1 o2 t1 := by
              rw [← ht1]
              exact NT2_drop _ hnt g1.oldNeNil g2.oldNeNil
            have hlent1 : t1.length ≤ L := by
              have := congrArg List.length hdec
              rw [List.length_append, List.length_cons] at this
              rw [List.length_cons] at hlen
              have := g1.len2
              omega
            have hrepl1 : pyReplace (c :: t) o1 n1 = n1 ++ pyReplace t1 o1 n1 := by
              rw [← hdec]
              exact pyReplace_match g1.oldNeNil
            have hrepl2 : pyReplace (c :: t) o2 n2 = o1 ++ pyReplace t1 o2 n2 := by
              conv_lhs => rw [← hdec]
              exact pyReplace_skip o1 g2.oldNeNil (by rw [hdec]; exact hnocc2)
            rw [hrepl1, hrepl2,
              pyReplace_skip n1 g2.oldNeNil (no_occ_in_new g2.headDq g1.dqNew),
              pyReplace_match g1.oldNeNil, ih t1 hlent1 g1 g2 hne hnt1]
          · by_cases h2 : occursAt o2 (c :: t) 0
            · rcases occursAt_zero.mp h2 with ⟨t2, hdec⟩
              have hnocc1 : ∀ i, i < o2.length → ¬ occursAt o1 (c :: t) i := by
                intro i hi hocc
                have hi' := occursAt_lt g1.oldNeNil hocc
                have h0 := occursAt_lt g2.oldNeNil h2
                have h1pos : 0 < o1.length := List.length_pos.mpr g1.oldNeNil
                have hiz : i ≠ 0 := fun he => h1 (he ▸ hocc)
                rcases NT2_elim hnt hi' h0 hocc h2 (Or.inl hiz) with hc | hc
                · omega
                · omega
              have ht2 : (c :: t).drop o2.length = t2 := by
                rw [← hdec, List.drop_left]
              have hnt2 : NT2 o1 o2 t2 := by
                rw [← ht2]
                exact NT2_drop _ hnt g1.oldNeNil g2.oldNeNil
              have hlent2 : t2.length ≤ L := by
                have := congrArg List.length hdec
                rw [List.length_append, List.length_cons] at this
                rw [List.length_cons] at hlen
                have := g2.len2
                omega
              have hrepl1 : pyReplace (c :: t) o1 n1 = o2 ++ pyReplace t2 o1 n1 := by
                conv_lhs => rw [← hdec]
                exact pyReplace_skip o2 g1.oldNeNil (by rw [hdec]; exact hnocc1)
              have hrepl2 : pyReplace (c :: t) o2 n2 = n2 ++ pyReplace t2 o2 n2 := by
                rw [← hdec]
                exact pyReplace_match g2.oldNeNil
              rw [hrepl1, hrepl2, pyReplace_match g2.oldNeNil,
                pyReplace_skip n2 g1.oldNeNil (no_occ_in_new g1.headDq g2.dqNew),
                ih t2 hlent2 g1 g2 hne hnt2]
            · have hp1 : ¬ pfx o1 (c :: t) = true :=
                fun hp => h1 (occursAt_zero.mpr ((pfx_iff _ _).mp hp))
              have hp2 : ¬ pfx o2 (c :: t) = true :=
                fun hp => h2 (occursAt_zero.mpr ((pfx_iff _ _).mp hp))
              have hnp1 : ¬ o1 <+: c :: t :=
                fun hp => h1 (occursAt_zero.mpr hp)
              have hnp2 : ¬ o2 <+: c :: t :=
                fun hp => h2 (occursAt_zero.mpr hp)
              rw [pyReplace_cons_no hp1, pyReplace_cons_no hp2]
              have hq2 : ¬ pfx o2 (c :: pyReplace t o1 n1) = true :=
                not_pfx_cons_replF g2.lastDq g2.uscOld g2.len2
                  g1.dqNew g1.uscNew hnp2
              have hq1 : ¬ pfx o1 (c :: pyReplace t o2 n2) = true :=
                not_pfx_cons_replF g1.lastDq g1.uscOld g1.len2
                  g2.dqNew g2.uscNew hnp1
              rw [pyReplace_cons_no hq2, pyReplace_cons_no hq1,
                ih t (by rw [List.length_cons] at hlen; omega) g1 g2 hne
                  (NT2_drop 1 hnt g1.oldNeNil g2.oldNeNil)]

lemma prefix_back {c : Char} {t o n p : List Char}
    (hlast : p.getLast? = some dq) (husc : usc ∉ p) (hlen : 2 ≤ p.length)
    (hdqn : dq ∉ n) (huscn : usc ∈ n)
    (h : p <+: c :: pyReplace t o n) : p <+: c :: t := by
  by_contra hnp
  exact not_pfx_cons_replF hlast husc hlen hdqn huscn hnp ((pfx_iff _ _).mpr h)

/-- Mapping a pair of occurrences backwards through one replacement: if the
token `p` occurs at position 0 and the token `q` occurs at a position `j`
inside `p`'s span in `c :: pyReplace t o n`, then both occurrences are already
present in `c :: t` at the same positions. -/
lemma occ_back_pair {c : Char} {t o n p np q nq : List Char} {j : Nat}
    (g : GoodPair o n) (gp : GoodPair p np) (gq : GoodPair q nq)
    (hntpo : NT2 p o (c :: t))
    (hp0 : occursAt p (c :: pyReplace t o n) 0)
    (hqj : occursAt q (c :: pyReplace t o n) j)
    (hj1 : 1 ≤ j) (hjp : j < p.length) :
    occursAt p (c :: t) 0 ∧ occursAt q (c :: t) j := by
  cases j with
  | zero => omega
  | succ j' =>
  have hpfx := occursAt_zero.mp hp0
  obtain ⟨ph, pt, hp⟩ : ∃ ph pt, p = ph :: pt := by
    cases p with
    | nil => exact absurd rfl gp.oldNeNil
    | cons a b => exact ⟨a, b, rfl⟩
  rw [hp] at hpfx
  rcases List.cons_prefix_cons.mp hpfx with ⟨hph, hpt⟩
  have hptne : pt ≠ [] := by
    have := gp.len2
    rw [hp, List.length_cons] at this
    intro he
    rw [he] at this
    simp at this
  have hptlast : pt.getLast? = some dq := by
    have := gp.lastDq
    rw [hp, getLast?_cons_ne_nil hptne] at this
    exact this
  have hptusc : usc ∉ pt := by
    have := gp.uscOld
    rw [hp] at this
    exact fun hm => this (List.mem_cons_of_mem _ hm)
  have hptt : pt <+: t := pre_replF t.length hptlast hptusc g.dqNew g.uscNew hpt
  have hp0' : occursAt p (c :: t) 0 := by
    rw [occursAt_zero, hp]
    exact List.cons_prefix_cons.mpr ⟨hph, hptt⟩
  refine ⟨hp0', ?_⟩
  set mid := pt.dropLast with hmid
  have hptdec : pt = mid ++ [dq] := by
    have h1 := List.dropLast_append_getLast hptne
    have h2 : pt.getLast hptne = dq := by
      have := List.getLast?_eq_getLast pt hptne
      rw [hptlast] at this
      exact (Option.some_inj.mp this).symm
    rw [h2] at h1
    exact h1.symm
  have hmiddq : dq ∉ mid := by
    have := gp.midDq
    rw [hp] at this
    simpa using this
  have hlenp : p.length = pt.length + 1 := by rw [hp, List.length_cons]
  have hlenpt : pt.length = mid.length + 1 := by
    rw [hptdec, List.length_append]
    simp
  have hj'pt : j' < pt.length := by omega
  have hqj' : occursAt q (pyReplace t o n) j' := occursAt_cons_succ.mp hqj
  obtain ⟨qt, hq⟩ : ∃ qt, q = dq :: qt := by
    cases hqq : q with
    | nil => exact absurd hqq (hqq ▸ gq.oldNeNil)
    | cons a b =>
        have := gq.headDq
        rw [hqq] at this
        simp at this
        exact ⟨b, by rw [this]⟩
  rcases hpt with ⟨R', hR'⟩
  by_cases hjm : j' < mid.length
  · exfalso
    have hdropRR : (pyReplace t o n).drop j' = pt.drop j' ++ R' := by
      rw [← hR', List.drop_append_eq_append_drop,
        show j' - pt.length = 0 by omega, List.drop_zero]
    have hdroppt : pt.drop j' = mid.drop j' ++ [dq] := by
      rw [hptdec, List.drop_append_eq_append_drop,
        show j' - mid.length = 0 by omega, List.drop_zero]
    cases hz : mid.drop j' with
    | nil =>
        have := congrArg List.length hz
        rw [List.length_drop] at this
        simp at this
        omega
    | cons z zs =>
        have hqpfx := hqj'
        unfold occursAt at hqpfx
        rw [hdropRR, hdroppt, hz, hq] at hqpfx
        rw [show (z :: zs ++ [dq]) ++ R' = z :: (zs ++ [dq] ++ R') by simp] at hqpfx
        rcases List.cons_prefix_cons.mp hqpfx with ⟨hzq, _⟩
        refine hmiddq ?_
        rw [hzq]
        exact List.drop_subset j' mid (hz ▸ List.mem_cons_self z zs)
  · have hjm' : j' = mid.length := by omega
    have hno : ∀ i, i < pt.length → ¬ occursAt o t i := by
      intro i hi hocc
      have hocc' : occursAt o (c :: t) (i + 1) := occursAt_cons_succ.mpr hocc
      have hb1 : (0 : Nat) < (c :: t).length := by simp
      have hb2 : i + 1 < (c :: t).length := occursAt_lt g.oldNeNil hocc'
      rcases NT2_elim hntpo hb1 hb2 hp0' hocc' (Or.inl (by omega)) with hc | hc
      · omega
      · have := g.len2
        omega
    rcases hptt with ⟨t', ht'⟩
    have hskip : pyReplace t o n = pt ++ pyReplace t' o n := by
      conv_lhs => rw [← ht']
      refine pyReplace_skip pt g.oldNeNil ?_
      intro i hi hocc
      refine hno i hi ?_
      rwa [ht'] at hocc
    have hdropmid : pt.drop mid.length = [dq] := by
      rw [hptdec, List.drop_left]
    have hdropRR : (pyReplace t o n).drop j' = dq :: pyReplace t' o n := by
      rw [hskip, List.drop_append_eq_append_drop,
        show j' - pt.length = 0 by omega, List.drop_zero, hjm', hdropmid,
        List.singleton_append]
    have hqpfx := hqj'
    unfold occursAt at hqpfx
    rw [hdropRR, hq] at hqpfx
    rcases List.cons_prefix_cons.mp hqpfx with ⟨_, hqt⟩
    have hqtne : qt ≠ [] := by
      have := gq.len2
      rw [hq, List.length_cons] at this
      intro he
      rw [he] at this
      simp at this
    have hqtlast : qt.getLast? = some dq := by
      have := gq.lastDq
      rw [hq, getLast?_cons_ne_nil hqtne] at this
      exact this
    have hqtusc : usc ∉ qt := by
      have := gq.uscOld
      rw [hq] at this
      exact fun hm => this (List.mem_cons_of_mem _ hm)
    have hqtt' : qt <+: t' :=
      pre_replF t'.length hqtlast hqtusc g.dqNew g.uscNew hqt
    have hdropt : t.drop j' = dq :: t' := by
      rw [← ht', List.drop_append_eq_append_drop,
        show j' - pt.length = 0 by omega, List.drop_zero, hjm', hdropmid,
        List.singleton_append]
    refine occursAt_cons_succ.mpr ?_
    unfold occursAt
    rw [hdropt, hq]
    exact List.cons_prefix_cons.mpr ⟨rfl, hqtt'⟩

/-- One replacement step preserves the no-overlap property of any two
tokens of the table. -/
lemma NT2_pres : ∀ (len : Nat) (s : List Char), s.length ≤ len →
    ∀ {o n o1 n1 o2 n2 : List Char},
    GoodPair o n → GoodPair o1 n1 → GoodPair o2 n2 →
    NT2 o1 o2 s → NT2 o1 o s → NT2 o2 o s →
    NT2 o1 o2 (pyReplace s o n) := by
  intro len
  induction len with
  | zero =>
      intro s hlen o n o1 n1 o2 n2 _ _ _ _ _ _
      have hs : s = [] := List.length_eq_zero.mp (Nat.le_zero.mp hlen)
      subst hs
      refine NT2_intro ?_
      intro i hi
      rw [show pyReplace [] o n = ([] : List Char) from rfl] at hi
      simp at hi
  | succ L ih =>
      intro s hlen o n o1 n1 o2 n2 g g1 g2 hnt12 hnt1o hnt2o
      cases hs : s with
      | nil =>
          subst hs
          refine NT2_intro ?_
          intro i hi
          rw [show pyReplace [] o n = ([] : List Char) from rfl] at hi
          simp at hi
      | cons c t =>
          subst hs
          by_cases ho : occursAt o (c :: t) 0
          · rcases occursAt_zero.mp ho with ⟨t0, hdec⟩
            have hrepl : pyReplace (c :: t) o n = n ++ pyReplace t0 o n := by
              rw [← hdec]
              exact pyReplace_match g.oldNeNil
            have ht0 : (c :: t).drop o.length = t0 := by
              rw [← hdec, List.drop_left]
            have hd12 : NT2 o1 o2 t0 := by
              rw [← ht0]
              exact NT2_drop _ hnt12 g1.oldNeNil g2.oldNeNil
            have hd1o : NT2 o1 o t0 := by
              rw [← ht0]
              exact NT2_drop _ hnt1o g1.oldNeNil g.oldNeNil
            have hd2o : NT2 o2 o t0 := by
              rw [← ht0]
              exact NT2_drop _ hnt2o g2.oldNeNil g.oldNeNil
            have hlent0 : t0.length ≤ L := by
              have := congrArg List.length hdec
              rw [List.length_append, List.length_cons] at this
              rw [List.length_cons] at hlen
              have := g.len2
              omega
            have hih := ih t0 hlent0 g g1 g2 hd12 hd1o hd2o
            rw [hrepl]
            refine NT2_intro ?_
            intro i hi j hj h1 h2 hne
            by_cases hin : i < n.length
            · exact absurd (occursAt_head_mem g1.headDq hin h1) g.dqNew
            · by_cases hjn : j < n.length
              · exact absurd (occursAt_head_mem g2.headDq hjn h2) g.dqNew
              · have h1' := occursAt_unshift (Nat.le_of_not_lt hin) h1
                have h2' := occursAt_unshift (Nat.le_of_not_lt hjn) h2
                have hb1 := occursAt_lt g1.oldNeNil h1'
                have hb2 := occursAt_lt g2.oldNeNil h2'
                have hne' : i - n.length ≠ j - n.length ∨ o1 ≠ o2 := by
                  rcases hne with hij | hoo
                  · exact Or.inl (by omega)
                  · exact Or.inr hoo
                rcases NT2_elim hih hb1 hb2 h1' h2' hne' with hc | hc
                · exact Or.inl (by omega)
                · exact Or.inr (by omega)
          · have hpo : ¬ pfx o (c :: t) = true :=
              fun hpf => ho (occursAt_zero.mpr ((pfx_iff _ _).mp hpf))
            have hrepl : pyReplace (c :: t) o n = c :: pyReplace t o n :=
              pyReplace_cons_no hpo
            have hteq : (c :: t).drop 1 = t := rfl
            have hd12 : NT2 o1 o2 t := by
              rw [← hteq]
              exact NT2_drop 1 hnt12 g1.oldNeNil g2.oldNeNil
            have hd1o : NT2 o1 o t := by
              rw [← hteq]
              exact NT2_drop 1 hnt1o g1.oldNeNil g.oldNeNil
            have hd2o : NT2 o2 o t := by
              rw [← hteq]
              exact NT2_drop 1 hnt2o g2.oldNeNil g.oldNeNil
            have hih := ih t (by rw [List.length_cons] at hlen; omega) g g1 g2
              hd12 hd1o hd2o
            rw [hrepl]
            refine NT2_intro ?_
            intro i hi j hj h1 h2 hne
            cases i with
            | zero =>
                cases j with
                | zero =>
                    have hoo : o1 ≠ o2 := by
                      rcases hne with hij | hoo
                      · exact absurd rfl hij
                      · exact hoo
                    have hb1 : o1 <+: c :: t :=
                      prefix_back g1.lastDq g1.uscOld g1.len2 g.dqNew g.uscNew
                        (occursAt_zero.mp h1)
                    have hb2 : o2 <+: c :: t :=
                      prefix_back g2.lastDq g2.uscOld g2.len2 g.dqNew g.uscNew
                        (occursAt_zero.mp h2)
                    have hlc : (0 : Nat) < (c :: t).length := by simp
                    rcases NT2_elim hnt12 hlc hlc (occursAt_zero.mpr hb1)
                      (occursAt_zero.mpr hb2) (Or.inr hoo) with hc | hc
                    · have := g1.len2
                      omega
                    · have := g2.len2
                      omega
                | succ j' =>
                    by_cases hj1 : j' + 1 < o1.length
                    · exfalso
                      obtain ⟨hb1, hb2⟩ := occ_back_pair g g1 g2 hnt1o h1 h2
                        (by omega) hj1
                      have hc1 := occursAt_lt g1.oldNeNil hb1
                      have hc2 := occursAt_lt g2.oldNeNil hb2
                      rcases NT2_elim hnt12 hc1 hc2 hb1 hb2
                        (Or.inl (by omega)) with hc | hc
                      · omega
                      · have := g2.len2
                        omega
                    · exact Or.inl (by omega)
            | succ i' =>
                cases j with
                | zero =>
                    by_cases hi1 : i' + 1 < o2.length
                    · exfalso
                      obtain ⟨hb2, hb1⟩ := occ_back_pair g g2 g1 hnt2o h2 h1
                        (by omega) hi1
                      have hc1 := occursAt_lt g1.oldNeNil hb1
                      have hc2 := occursAt_lt g2.oldNeNil hb2
                      rcases NT2_elim hnt12 hc1 hc2 hb1 hb2
                        (Or.inl (by omega)) with hc | hc
                      · have := g1.len2
                        omega
                      · omega
                    · exact Or.inr (by omega)
                | succ j' =>
                    have h1' := occursAt_cons_succ.mp h1
                    have h2' := occursAt_cons_succ.mp h2
                    have hb1 := occursAt_lt g1.oldNeNil h1'
                    have hb2 := occursAt_lt g2.oldNeNil h2'
                    have hne' : i' ≠ j' ∨ o1 ≠ o2 := by
                      rcases hne with hij | hoo
                      · exact Or.inl (by omega)
                      · exact Or.inr hoo
                    rcases NT2_elim hih hb1 hb2 h1' h2' hne' with hc | hc
                    · exact Or.inl (by omega)
                    · exact Or.inr (by omega)

lemma NoTouch_sub {ms ms' : List (List Char × List Char)} {s : List Char}
    (hsub : ∀ m ∈ ms', m ∈ ms) (h : NoTouch ms s) : NoTouch ms' s :=
  fun m1 h1 m2 h2 => h m1 (hsub m1 h1) m2 (hsub m2 h2)

lemma NoTouch_pres {ms : List (List Char × List Char)} {s : List Char}
    {o n : List Char}
    (hg : ∀ m ∈ ms, GoodPair m.1 m.2) (hm : (o, n) ∈ ms) (h : NoTouch ms s) :
    NoTouch ms (pyReplace s o n) := by
  intro m1 h1 m2 h2
  exact NT2_pres s.length s (le_refl _) (hg (o, n) hm) (hg m1 h1) (hg m2 h2)
    (h m1 h1 m2 h2) (h m1 h1 (o, n) hm) (h m2 h2 (o, n) hm)

lemma applyMappings_swap (l : List (List Char × List Char)) (s : List Char) (k : Nat)
    {o1 n1 o2 n2 : List Char}
    (g1 : GoodPair o1 n1) (g2 : GoodPair o2 n2) (hne : o1 ≠ o2)
    (hnt : NT2 o1 o2 s) :
    applyMappings ((o1, n1) :: (o2, n2) :: l) (s, k) =
      applyMappings ((o2, n2) :: (o1, n1) :: l) (s, k) := by
  have hc2 : pyCount (pyReplace s o1 n1) o2 = pyCount s o2 :=
    pyCount_pres s.length s (le_refl _) g1 g2 hne hnt
  have hc1 : pyCount (pyReplace s o2 n2) o1 = pyCount s o1 :=
    pyCount_pres s.length s (le_refl _) g2 g1 (Ne.symm hne) (NT2_symm hnt)
  by_cases h1 : 0 < pyCount s o1
  · by_cases h2 : 0 < pyCount s o2
    · conv_lhs => rw [applyMappings_cons, if_pos h1, applyMappings_cons]
      conv_rhs => rw [applyMappings_cons, if_pos h2, applyMappings_cons]
      rw [hc2, hc1]
      conv_lhs => rw [if_pos h2]
      conv_rhs => rw [if_pos h1]
      rw [pyReplace_comm s.length s (le_refl _) g1 g2 hne hnt,
        show k + pyCount s o1 + pyCount s o2 = k + pyCount s o2 + pyCount s o1
          by omega]
    · conv_lhs => rw [applyMappings_cons, if_pos h1, applyMappings_cons]
      conv_rhs => rw [applyMappings_cons, if_neg h2, applyMappings_cons]
      rw [hc2]
      conv_lhs => rw [if_neg h2]
      conv_rhs => rw [if_pos h1]
  · by_cases h2 : 0 < pyCount s o2
    · conv_lhs => rw [applyMappings_cons, if_neg h1, applyMappings_cons]
      conv_rhs => rw [applyMappings_cons, if_pos h2, applyMappings_cons]
      rw [hc1]
      conv_lhs => rw [if_pos h2]
      conv_rhs => rw [if_neg h1]
    · conv_lhs => rw [applyMappings_cons, if_neg h1, applyMappings_cons]
      conv_rhs => rw [applyMappings_cons, if_neg h2, applyMappings_cons]
      conv_lhs => rw [if_neg h2]
      conv_rhs => rw [if_neg h1]

/-- Under the no-overlap condition, the replacement loop gives the same text
and the same total count for any permutation of the mapping entries. -/
lemma applyMappings_perm : ∀ {ms ms' : List (List Char × List Char)},
    ms.Perm ms' →
    (∀ m ∈ ms, GoodPair m.1 m.2) →
    (∀ m1 ∈ ms, ∀ m2 ∈ ms, m1.1 = m2.1 → m1.2 = m2.2) →
    ∀ s k, NoTouch ms s → applyMappings ms (s, k) = applyMappings ms' (s, k) := by
  intro ms ms' hperm
  induction hperm with
  | nil => intro _ _ s k _; rfl
  | cons x hp ih =>
      intro hg hfn s k hnt
      obtain ⟨o, n⟩ := x
      rw [applyMappings_cons, applyMappings_cons]
      by_cases hc : 0 < pyCount s o
      · rw [if_pos hc]
        exact ih (fun m hm => hg m (List.mem_cons_of_mem _ hm))
          (fun m1 h1 m2 h2 he =>
            hfn m1 (List.mem_cons_of_mem _ h1) m2 (List.mem_cons_of_mem _ h2) he)
          _ _
          (NoTouch_sub (fun m hm => List.mem_cons_of_mem _ hm)
            (NoTouch_pres hg (List.mem_cons_self _ _) hnt))
      · rw [if_neg hc]
        exact ih (fun m hm => hg m (List.mem_cons_of_mem _ hm))
          (fun m1 h1 m2 h2 he =>
            hfn m1 (List.mem_cons_of_mem _ h1) m2 (List.mem_cons_of_mem _ h2) he)
          s k
          (NoTouch_sub (fun m hm => List.mem_cons_of_mem _ hm) hnt)
  | swap x y l =>
      intro hg hfn s k hnt
      obtain ⟨oa, na⟩ := y
      obtain ⟨ob, nb⟩ := x
      have hma : (oa, na) ∈ (oa, na) :: (ob, nb) :: l := List.mem_cons_self _ _
      have hmb : (ob, nb) ∈ (oa, na) :: (ob, nb) :: l :=
        List.mem_cons_of_mem _ (List.mem_cons_self _ _)
      by_cases he : oa = ob
      · have hn : na = nb := hfn (oa, na) hma (ob, nb) hmb he
        rw [he, hn]
      · exact applyMappings_swap l s k (hg (oa, na) hma) (hg (ob, nb) hmb) he
          (hnt (oa, na) hma (ob, nb) hmb)
  | trans h1 h2 ih1 ih2 =>
      intro hg hfn s k hnt
      rw [ih1 hg hfn s k hnt]
      exact ih2 (fun m hm => hg m (h1.mem_iff.mpr hm))
        (fun m1 hm1 m2 hm2 he =>
          hfn m1 (h1.mem_iff.mpr hm1) m2 (h1.mem_iff.mpr hm2) he)
        s k
        (fun m1 hm1 m2 hm2 => hnt m1 (h1.mem_iff.mpr hm1) m2 (h1.mem_iff.mpr hm2))

/-! ### Claim C8: order independence of the mapping table -/

/-- C8 counterexample.  The claim that any permutation of the mapping entries
yields the same output is false as stated: `CM_SWAP` is a permutation of
`COLUMN_MAPPINGS`, yet on the text `"teamId"userId"` — where the two token
occurrences share the middle quote character — the two orders produce
different outputs (`team_iduserId"` versus `"teamIduser_id`). -/
theorem claim_C8_counterexample :
    COLUMN_MAPPINGS.Perm CM_SWAP ∧
    applyMappings CM_SWAP ("\"teamId\"userId\"".toList, 0) ≠
      applyMappings COLUMN_MAPPINGS ("\"teamId\"userId\"".toList, 0) := by
  decide

/-- C8 (amended).  Order independence holds on every text in which no two
distinct occurrences of mapped old tokens overlap (`NoTouch`): for any
permutation of either script's table, the replacement loop produces the same
output text and the same total count as the original table. -/
theorem claim_C8_order (ms ms' : List (List Char × List Char))
    (s : List Char) (k : Nat)
    (h1 : COLUMN_MAPPINGS.Perm ms) (h2 : REPLACEMENTS.Perm ms')
    (hn1 : NoTouch COLUMN_MAPPINGS s) (hn2 : NoTouch REPLACEMENTS s) :
    applyMappings ms (s, k) = applyMappings COLUMN_MAPPINGS (s, k) ∧
    applyMappings ms' (s, k) = applyMappings REPLACEMENTS (s, k) :=
  ⟨(applyMappings_perm h1 goodCM (by decide) s k hn1).symm,
   (applyMappings_perm h2 goodRP (by decide) s k hn2).symm⟩

/-- C8 witness: the amended order-independence theorem applied at the
concrete permutation `CM_SWAP` (and `COLUMN_MAPPINGS` itself for the second
table) on the overlap-free text `"userId"`. -/
theorem claim_C8_witness :
    applyMappings CM_SWAP ("\"userId\"".toList, 0) =
      applyMappings COLUMN_MAPPINGS ("\"userId\"".toList, 0) ∧
    applyMappings COLUMN_MAPPINGS ("\"userId\"".toList, 0) =
      applyMappings REPLACEMENTS ("\"userId\"".toList, 0) := by
  have hp : REPLACEMENTS.Perm COLUMN_MAPPINGS := by decide
  exact claim_C8_order CM_SWAP COLUMN_MAPPINGS "\"userId\"".toList 0
    (by decide) hp (by decide) (by decide)
